import Mathlib

/-!
# A verification development for `queue.c`

The queue of `queue.c` is a singly linked list of heap cells.  The embedding
keeps the pointer structure: a heap maps addresses to list elements, `NULL` is
`none`, every C function is a Lean function that threads the heap (and the
queue record) explicitly.  A result of `none` means that the C execution has
no defined result (a dereference of a pointer that is not allocated) or that
the iteration budget of a loop was used up.

Strings are lists of bytes (the bytes before the terminating NUL).
-/

namespace Queue

/-! ## Data model -/

/-- Modelled from the spec: the element type `list_ele_t` is declared in
`queue.h`; an element holds one string value (a `char *`, which may be
`NULL`) and the successor reference `next`. -/
structure list_ele_t where
  value : Option (List Nat)
  next : Option Nat
deriving DecidableEq

/-- Modelled from the spec: the queue type `queue_t` is declared in
`queue.h`; it holds the references `head` and `tail` and the element count
`size`.  The counter is a C `int`: its value is kept as an integer and every
`++` and `--` of the source is followed by the reduction `to_int` to the range
of a 32-bit `int`. -/
structure queue_t where
  head : Option Nat
  tail : Option Nat
  size : Int
deriving DecidableEq

/-- The heap of list elements: an address is either free (`none`) or holds an
element. -/
abbrev Heap := Nat → Option list_ele_t

/-- The heap with the cell at `a` replaced by `c`. -/
def Heap.write (h : Heap) (a : Nat) (c : Option list_ele_t) : Heap :=
  fun x => if x = a then c else h x

/-- A caller buffer: the byte stored at each offset from the buffer pointer. -/
abbrev Buffer := Nat → Nat

/-! ## Library functions used by `queue.c` -/

/-- The function `strcmp` of the C library, up to the magnitude of the result
(the C standard fixes the sign only): bytes are compared as unsigned values,
and a string that ends first is the smaller one. -/
def strcmp : List Nat → List Nat → Int
  | [], [] => 0
  | [], _ :: _ => -1
  | _ :: _, [] => 1
  | a :: as, b :: bs => if a = b then strcmp as bs else if a < b then -1 else 1

/-- The string that `snprintf(dst, n, "%s", s)` leaves in `dst` when `n > 0`:
at most `n - 1` bytes of `s`. -/
def snprintf_str (n : Nat) (s : List Nat) : List Nat :=
  s.take (n - 1)

/-- The call `snprintf(sp, n, "%s", s)` on a caller buffer: nothing is written
when `n = 0`; otherwise the truncated string and one terminating NUL. -/
def snprintf (sp : Buffer) (n : Nat) (s : List Nat) : Buffer :=
  if n = 0 then sp
  else fun i =>
    if i < (snprintf_str n s).length then (snprintf_str n s).getD i 0
    else if i = (snprintf_str n s).length then 0
    else sp i

/-! ## The type `int` -/

/-- The value held by a C `int` (32 bits, two's complement) after the integer
`x` is stored in it with wrap-around.  An increment of `INT_MAX` and a
decrement of `INT_MIN`, which the C standard leaves undefined, get the result
of two's complement arithmetic: `to_int (2147483647 + 1) = -2147483648`. -/
def to_int (x : Int) : Int :=
  (x + 2147483648) % 4294967296 - 2147483648

/-! ## The functions of `queue.c` -/

/-- The function `q_new`; `alloc` tells whether `malloc` succeeded. -/
def q_new (alloc : Bool) : Option queue_t :=
  if alloc then some { head := none, tail := none, size := 0 } else none

/-- The loop of `q_free`: every element reached from `cur` is released. -/
def q_free_loop : Nat → Heap → Option Nat → Option Heap
  | fuel, h, cur =>
    match cur with
    | none => some h
    | some a =>
      match fuel with
      | 0 => none
      | fuel + 1 =>
        match h a with
        | none => none
        | some tmp => q_free_loop fuel (h.write a none) tmp.next

/-- The function `q_free`: the heap after the call (the queue record itself is
released as well, so no queue is returned). -/
def q_free (fuel : Nat) (h : Heap) (q : Option queue_t) : Option Heap :=
  match q with
  | none => some h
  | some qs => q_free_loop fuel h qs.head

/-- The function `create_ele`.  The two `malloc` outcomes are inputs: `node`
is the address returned for the element (`none` when that allocation fails),
`str` tells whether the allocation of the string copy succeeded.  A fresh
block has indeterminate contents; both fields are written before they are
read. -/
def create_ele (h : Heap) (node : Option Nat) (str : Bool) (s : List Nat) :
    Heap × Option Nat :=
  match node with
  | none => (h, none)
  | some a =>
    let h1 := h.write a (some { value := none, next := none })
    if str then
      (h1.write a (some { value := some (snprintf_str (s.length + 1) s), next := none }),
        some a)
    else
      (h1.write a none, none)

/-- The function `q_insert_head`. -/
def q_insert_head (h : Heap) (q : Option queue_t) (s : List Nat)
    (node : Option Nat) (str : Bool) : Option (Bool × Heap × Option queue_t) :=
  match q with
  | none => some (false, h, none)
  | some qs =>
    match create_ele h node str s with
    | (h1, none) => some (false, h1, some qs)
    | (h1, some newh) =>
      match h1 newh with
      | none => none
      | some e =>
        let h2 := h1.write newh (some { e with next := qs.head })
        let q1 : queue_t := { qs with head := some newh }
        let q2 : queue_t := if q1.tail = none then { q1 with tail := some newh } else q1
        some (true, h2, some { q2 with size := to_int (q2.size + 1) })

/-- The function `q_insert_tail`. -/
def q_insert_tail (h : Heap) (q : Option queue_t) (s : List Nat)
    (node : Option Nat) (str : Bool) : Option (Bool × Heap × Option queue_t) :=
  match q with
  | none => some (false, h, none)
  | some qs =>
    match create_ele h node str s with
    | (h1, none) => some (false, h1, some qs)
    | (h1, some newh) =>
      match qs.tail with
      | some t =>
        match h1 t with
        | none => none
        | some e =>
          let h2 := h1.write t (some { e with next := some newh })
          some (true, h2, some { qs with tail := some newh, size := to_int (qs.size + 1) })
      | none =>
        some (true, h1,
          some { head := some newh, tail := some newh, size := to_int (qs.size + 1) })

/-- The function `q_remove_head`; `sp` is the caller buffer (`none` for a
`NULL` pointer).  The result holds the return value, the heap, the queue and
the caller buffer after the call. -/
def q_remove_head (h : Heap) (q : Option queue_t) (sp : Option Buffer) (bufsize : Nat) :
    Option (Bool × Heap × Option queue_t × Option Buffer) :=
  match q with
  | none => some (false, h, none, sp)
  | some qs =>
    match qs.head with
    | none => some (false, h, some qs, sp)
    | some a =>
      match h a with
      | none => none
      | some tmp =>
        let q1 : queue_t := { qs with head := tmp.next }
        let q2 : queue_t := if q1.head = none then { q1 with tail := none } else q1
        let q3 : queue_t := { q2 with size := to_int (q2.size - 1) }
        let sp1 : Option Buffer :=
          match sp, tmp.value with
          | some b, some v => some (snprintf b bufsize v)
          | _, _ => sp
        some (true, h.write a none, some q3, sp1)

/-- The function `q_size`; the result is a C `int`. -/
def q_size (q : Option queue_t) : Int :=
  match q with
  | some qs => to_int qs.size
  | none => 0

/-- The loop of `reverse`, started with the locals `prev` and `head`. -/
def reverse_loop : Nat → Heap → Option Nat → Option Nat → Option (Heap × Option Nat)
  | fuel, h, prev, head =>
    match head with
    | none => some (h, prev)
    | some a =>
      match fuel with
      | 0 => none
      | fuel + 1 =>
        match h a with
        | none => none
        | some e => reverse_loop fuel (h.write a (some { e with next := prev })) (some a) e.next

/-- The static function `reverse`. -/
def reverse (fuel : Nat) (h : Heap) (head : Option Nat) : Option (Heap × Option Nat) :=
  reverse_loop fuel h none head

/-- The function `q_reverse`. -/
def q_reverse (fuel : Nat) (h : Heap) (q : Option queue_t) : Option (Heap × Option queue_t) :=
  match q with
  | none => some (h, none)
  | some qs =>
    match qs.head with
    | none => some (h, some qs)
    | some a =>
      match reverse fuel h (some a) with
      | none => none
      | some (h1, p) => some (h1, some { qs with tail := some a, head := p })

/-- The assignment `*indirect = p` of `merge`: `indirect` is `none` for
`&head` and `some a` for `&a->next`.  The result is the heap and the local
`head` after the assignment. -/
def store_indirect (h : Heap) (head indirect p : Option Nat) : Option (Heap × Option Nat) :=
  match indirect with
  | none => some (h, p)
  | some a =>
    match h a with
    | none => none
    | some e => some (h.write a (some { e with next := p }), head)

/-- The value `*indirect` of `merge`. -/
def load_indirect (h : Heap) (head indirect : Option Nat) : Option (Option Nat) :=
  match indirect with
  | none => some head
  | some a =>
    match h a with
    | none => none
    | some e => some e.next

/-- The test `!left->value || (right->value && 0 >= strcmp(left->value, right->value))`
of `merge`, with the short-circuit order of the reads. -/
def take_left (h : Heap) (l r : Nat) : Option Bool :=
  match h l with
  | none => none
  | some le =>
    match le.value with
    | none => some true
    | some lv =>
      match h r with
      | none => none
      | some re =>
        match re.value with
        | none => some false
        | some rv => some (decide (0 ≥ strcmp lv rv))

/-- The loop of `merge` followed by the final `*indirect = left ? left : right`;
the result is the heap and the local `head`. -/
def merge_loop : Nat → Heap → Option Nat → Option Nat → Option Nat → Option Nat →
    Option (Heap × Option Nat)
  | fuel, h, head, indirect, left, right =>
    match left, right with
    | some l, some r =>
      match fuel with
      | 0 => none
      | fuel + 1 =>
        match take_left h l r with
        | none => none
        | some true =>
          match store_indirect h head indirect (some l) with
          | none => none
          | some (h1, head1) =>
            match h1 l with
            | none => none
            | some le =>
              match load_indirect h1 head1 indirect with
              | some (some b) => merge_loop fuel h1 head1 (some b) le.next (some r)
              | _ => none
        | some false =>
          match store_indirect h head indirect (some r) with
          | none => none
          | some (h1, head1) =>
            match h1 r with
            | none => none
            | some re =>
              match load_indirect h1 head1 indirect with
              | some (some b) => merge_loop fuel h1 head1 (some b) (some l) re.next
              | _ => none
    | some l, none => store_indirect h head indirect (some l)
    | none, right => store_indirect h head indirect right

/-- The static function `merge`. -/
def merge (fuel : Nat) (h : Heap) (left right : Option Nat) : Option (Heap × Option Nat) :=
  merge_loop fuel h none none left right

/-- The slow/fast loop of `merge_sort`; the result is the final `slow`. -/
def split_loop : Nat → Heap → Option Nat → Option Nat → Option (Option Nat)
  | fuel, h, fast, slow =>
    match fast with
    | none => some slow
    | some f =>
      match h f with
      | none => none
      | some fe =>
        match fe.next with
        | none => some slow
        | some f2 =>
          match fuel with
          | 0 => none
          | fuel + 1 =>
            match h f2, slow with
            | some f2e, some s =>
              match h s with
              | none => none
              | some se => split_loop fuel h f2e.next se.next
            | _, _ => none

/-- The static function `merge_sort`.  `depth` bounds the nesting of the
recursive calls, `fuel` the iterations of each loop. -/
def merge_sort : Nat → Nat → Heap → Option Nat → Option (Heap × Option Nat)
  | depth, fuel, h, head =>
    match head with
    | none => some (h, none)
    | some a =>
      match h a with
      | none => none
      | some e =>
        match e.next with
        | none => some (h, some a)
        | some b =>
          match depth with
          | 0 => none
          | depth + 1 =>
            match split_loop fuel h (some b) (some a) with
            | some (some s) =>
              match h s with
              | none => none
              | some se =>
                let fast := se.next
                let h1 := h.write s (some { se with next := none })
                match merge_sort depth fuel h1 (some a) with
                | none => none
                | some (h2, left) =>
                  match merge_sort depth fuel h2 fast with
                  | none => none
                  | some (h3, right) => merge fuel h3 left right
            | _ => none

/-- The loop `while (cur->next) cur = cur->next` of `q_sort`; the result is the
final `cur`. -/
def last_loop : Nat → Heap → Option Nat → Option Nat
  | fuel, h, cur =>
    match cur with
    | none => none
    | some c =>
      match h c with
      | none => none
      | some e =>
        match e.next with
        | none => some c
        | some n =>
          match fuel with
          | 0 => none
          | fuel + 1 => last_loop fuel h (some n)

/-- The function `q_sort`. -/
def q_sort (depth fuel : Nat) (h : Heap) (q : Option queue_t) : Option (Heap × Option queue_t) :=
  match q with
  | none => some (h, none)
  | some qs =>
    match qs.head with
    | none => some (h, some qs)
    | some a =>
      match merge_sort depth fuel h (some a) with
      | none => none
      | some (h1, p) =>
        match last_loop fuel h1 p with
        | none => none
        | some c => some (h1, some { qs with head := p, tail := some c })

/-! ## Specification vocabulary -/

/-- The cells `L` form a list segment of the heap that starts at the pointer
`p` and whose last successor reference is `q`. -/
def lseg (h : Heap) : Option Nat → List Nat → Option Nat → Prop
  | p, [], q => p = q
  | p, a :: as, q => p = some a ∧ ∃ e, h a = some e ∧ lseg h e.next as q

/-- The cells `L` are exactly the elements reached from `p` by following
successor references, the last of them having no successor. -/
def chain (h : Heap) (p : Option Nat) (L : List Nat) : Prop :=
  lseg h p L none

/-- The value stored in the element at address `a` (`none` when the value
pointer is `NULL`). -/
def value_at (h : Heap) (a : Nat) : Option (List Nat) :=
  match h a with
  | some e => e.value
  | none => none

/-- The values of the elements `L`, in order. -/
def vals (h : Heap) (L : List Nat) : List (Option (List Nat)) :=
  L.map (value_at h)

/-- The well-formed queue states: the elements linked from `head` are `L`,
`tail` is the last of them and `size` is their number, a value of the type
`int`. -/
def wf (h : Heap) (q : queue_t) (L : List Nat) : Prop :=
  chain h q.head L ∧ q.tail = L.getLast? ∧ q.size = (L.length : Int) ∧ q.size ≤ 2147483647

/-- The queue states whose links are right and whose counter is the number of
elements as it is stored in an `int`: the elements linked from `head` are
`L`, `tail` is the last of them and `size` is `to_int` of their number.  Every
well-formed state is of this kind, and so is every state the functions reach,
also after the counter has wrapped. -/
def shape (h : Heap) (q : queue_t) (L : List Nat) : Prop :=
  chain h q.head L ∧ q.tail = L.getLast? ∧ q.size = to_int (L.length : Int)

/-- The contract of `malloc`: a returned block was not in use. -/
def malloc_ok (h : Heap) (node : Option Nat) : Prop :=
  ∀ a, node = some a → h a = none

/-- One call of the queue interface on a present queue, with the choices of
its environment (allocation outcomes, caller buffer, iteration budgets). -/
inductive Call where
  | insert_head (s : List Nat) (node : Option Nat) (str : Bool)
  | insert_tail (s : List Nat) (node : Option Nat) (str : Bool)
  | remove_head (sp : Option Buffer) (bufsize : Nat)
  | reverse (fuel : Nat)
  | sort (depth fuel : Nat)

/-- The environment of a call respects the contract of `malloc`. -/
def Call.allowed (h : Heap) : Call → Prop
  | Call.insert_head _ node _ => malloc_ok h node
  | Call.insert_tail _ node _ => malloc_ok h node
  | _ => True

/-- The heap and queue after one call. -/
def run_call (h : Heap) (q : queue_t) : Call → Option (Heap × Option queue_t)
  | Call.insert_head s node str => (q_insert_head h (some q) s node str).map (fun r => r.2)
  | Call.insert_tail s node str => (q_insert_tail h (some q) s node str).map (fun r => r.2)
  | Call.remove_head sp n => (q_remove_head h (some q) sp n).map (fun r => (r.2.1, r.2.2.1))
  | Call.reverse fuel => q_reverse fuel h (some q)
  | Call.sort depth fuel => q_sort depth fuel h (some q)

/-- The states reachable from `q_new` by finitely many calls of
`q_insert_head`, `q_insert_tail`, `q_remove_head`, `q_reverse` and `q_sort`.
The heap in which the queue is created is arbitrary. -/
inductive Reachable : Heap → queue_t → Prop
  | new (h : Heap) (q : queue_t) : q_new true = some q → Reachable h q
  | step (h : Heap) (q : queue_t) (c : Call) (h' : Heap) (q' : queue_t) :
      Reachable h q → c.allowed h → run_call h q c = some (h', some q') → Reachable h' q'

/-- Insert the strings at the tail, in order; every allocation succeeds and
each item carries the address that `malloc` returns for its element. -/
def insert_tail_all (h : Heap) (q : Option queue_t) :
    List (Nat × List Nat) → Option (Heap × Option queue_t)
  | [] => some (h, q)
  | (a, s) :: rest =>
    match q_insert_tail h q s (some a) true with
    | some (true, h1, q1) => insert_tail_all h1 q1 rest
    | _ => none

/-- Call `q_remove_head` once for every caller buffer (a buffer and its
capacity); the result lists the return value and the buffer of every call. -/
def remove_head_all (h : Heap) (q : Option queue_t) :
    List (Buffer × Nat) → Option (List (Bool × Option Buffer) × Heap × Option queue_t)
  | [] => some ([], h, q)
  | (b, n) :: rest =>
    match q_remove_head h q (some b) n with
    | none => none
    | some (ret, h1, q1, sp1) =>
      match remove_head_all h1 q1 rest with
      | none => none
      | some (outs, h2, q2) => some ((ret, sp1) :: outs, h2, q2)

/-- The first `n` bytes of a buffer. -/
def read_bytes (b : Buffer) (n : Nat) : List Nat :=
  (List.range n).map b

/-- The buffer holds the string `s` followed by the terminating NUL. -/
def holds (sp : Option Buffer) (s : List Nat) : Prop :=
  match sp with
  | none => False
  | some b => read_bytes b (s.length + 1) = s ++ [0]

/-- The empty heap. -/
def empty_heap : Heap := fun _ => none

/-- A buffer filled with the byte 255. -/
def blank : Buffer := fun _ => 255

/-- The strings delivered by `remove_head_all`, each read up to the given
length plus the terminator. -/
def delivered : List (Bool × Option Buffer) → List Nat → List (List Nat)
  | (_, some b) :: outs, n :: ns => read_bytes b (n + 1) :: delivered outs ns
  | _, _ => []

/-- The scenario of the specification for `q_sort`: "banana", "apple" and
"cherry" are inserted at the tail, the queue is sorted and emptied. -/
def sort_scenario : Option (List (List Nat)) :=
  match insert_tail_all empty_heap (q_new true)
      [(1, [98, 97, 110, 97, 110, 97]), (2, [97, 112, 112, 108, 101]),
       (3, [99, 104, 101, 114, 114, 121])] with
  | none => none
  | some (h1, q1) =>
    match q_sort 2 3 h1 q1 with
    | none => none
    | some (h2, q2) =>
      match remove_head_all h2 q2 [(blank, 16), (blank, 16), (blank, 16)] with
      | none => none
      | some (outs, _, _) => some (delivered outs [5, 6, 6])

/-- The scenario of the specification for `q_reverse`: "a" and "b" are
inserted at the head, the queue is reversed and emptied. -/
def reverse_scenario : Option (List (List Nat)) :=
  match q_insert_head empty_heap (q_new true) [97] (some 1) true with
  | some (true, h1, q1) =>
    match q_insert_head h1 q1 [98] (some 2) true with
    | some (true, h2, q2) =>
      match q_reverse 2 h2 q2 with
      | none => none
      | some (h3, q3) =>
        match remove_head_all h3 q3 [(blank, 16), (blank, 16)] with
        | none => none
        | some (outs, _, _) => some (delivered outs [1, 1])
    | _ => none
  | _ => none

/-- The state after a call that returned with a present queue (the state is
kept when the call has no result). -/
def after (st : Heap × queue_t) (c : Call) : Heap × queue_t :=
  match run_call st.1 st.2 c with
  | some (h', some q') => (h', q')
  | _ => st

/-- A concrete queue of two elements: "b" at address 1, then "a" at address 2. -/
def demo_heap : Heap := fun x =>
  if x = 1 then some { value := some [98], next := some 2 }
  else if x = 2 then some { value := some [97], next := none }
  else none

/-- The queue record of `demo_heap`. -/
def demo_queue : queue_t := { head := some 1, tail := some 2, size := 2 }

/-- A reachable state: "b" and "a" are inserted at the tail of a new queue,
the queue is sorted, reversed, and its head is removed. -/
def demo_state : Heap × queue_t :=
  after (after (after (after (after (empty_heap, { head := none, tail := none, size := 0 })
    (Call.insert_tail [98] (some 1) true)) (Call.insert_tail [97] (some 2) true))
    (Call.sort 1 2)) (Call.reverse 2)) (Call.remove_head none 0)

/-- The order test of `merge` on two values: the left value is taken when it is
absent, or when the right value is present and `strcmp` does not put the left
value after it. -/
def le_value (l r : Option (List Nat)) : Bool :=
  match l with
  | none => true
  | some lv =>
    match r with
    | none => false
    | some rv => decide (0 ≥ strcmp lv rv)

/-- The order test of `merge` on two elements of the heap `h`. -/
def le_elem (h : Heap) (a b : Nat) : Bool :=
  le_value (value_at h a) (value_at h b)

/-- Two heaps hold the same elements with the same values: at most successor
references differ. -/
def same_values (h h' : Heap) : Prop :=
  ∀ x, (h' x).map (fun e => e.value) = (h x).map (fun e => e.value)

/-! ## Vocabulary for counting, splitting and the width of `int` -/

/-- The return value of a call together with the heap and the queue after it;
the functions without a return value count as returning true. -/
def run_call_ret (h : Heap) (q : queue_t) : Call → Option (Bool × Heap × Option queue_t)
  | Call.insert_head s node str => q_insert_head h (some q) s node str
  | Call.insert_tail s node str => q_insert_tail h (some q) s node str
  | Call.remove_head sp n =>
    (q_remove_head h (some q) sp n).map (fun r => (r.1, r.2.1, r.2.2.1))
  | Call.reverse fuel => (q_reverse fuel h (some q)).map (fun r => (true, r.1, r.2))
  | Call.sort depth fuel => (q_sort depth fuel h (some q)).map (fun r => (true, r.1, r.2))

/-- The call is `q_insert_head` or `q_insert_tail`. -/
def Call.is_insert : Call → Bool
  | Call.insert_head _ _ _ => true
  | Call.insert_tail _ _ _ => true
  | _ => false

/-- The call is `q_remove_head`. -/
def Call.is_remove : Call → Bool
  | Call.remove_head _ _ => true
  | _ => false

/-- The states reachable from `q_new` by finitely many calls, together with
the number `i` of inserts that returned true and the number `r` of removes
that returned true on the way. -/
inductive Counted : Heap → queue_t → Nat → Nat → Prop
  | new (h : Heap) (q : queue_t) : q_new true = some q → Counted h q 0 0
  | step (h : Heap) (q : queue_t) (c : Call) (ret : Bool) (h' : Heap) (q' : queue_t)
      (i r : Nat) : Counted h q i r → c.allowed h →
      run_call_ret h q c = some (ret, h', some q') →
      Counted h' q' (i + if c.is_insert && ret then 1 else 0)
        (r + if c.is_remove && ret then 1 else 0)

/-- The state and the two counters after a call that returned with a present
queue (everything is kept when the call has no result). -/
def after_ret (st : Heap × queue_t × Nat × Nat) (c : Call) : Heap × queue_t × Nat × Nat :=
  match run_call_ret st.1 st.2.1 c with
  | some (ret, h', some q') =>
    (h', q', st.2.2.1 + (if c.is_insert && ret then 1 else 0),
      st.2.2.2 + (if c.is_remove && ret then 1 else 0))
  | _ => st

/-- A counted run: "b" and "a" are inserted at the tail of a new queue, an
insertion fails, the queue is sorted and its head is removed. -/
def counted_state : Heap × queue_t × Nat × Nat :=
  after_ret (after_ret (after_ret (after_ret (after_ret
    (empty_heap, { head := none, tail := none, size := 0 }, 0, 0)
    (Call.insert_tail [98] (some 1) true)) (Call.insert_tail [97] (some 2) true))
    (Call.insert_head [99] none true)) (Call.sort 1 2)) (Call.remove_head none 0)

/-- A queue of two elements whose second element has no value: "b" at
address 1, then an element with a `NULL` value at address 2 (the queue record
is `demo_queue`). -/
def absent_heap : Heap := fun x =>
  if x = 1 then some { value := some [98], next := some 2 }
  else if x = 2 then some { value := none, next := none }
  else none

/-- The split of `merge_sort` for a list of at least two elements: `head` is
the first element and `next` its successor; the slow/fast walk is followed by
`fast = slow->next; slow->next = NULL`.  The result is the heap, the left
sub-list (`head`) and the right sub-list (`fast`). -/
def merge_sort_split (fuel : Nat) (h : Heap) (head next : Nat) :
    Option (Heap × Option Nat × Option Nat) :=
  match split_loop fuel h (some next) (some head) with
  | some (some s) =>
    match h s with
    | none => none
    | some se => some (h.write s (some { se with next := none }), some head, se.next)
  | _ => none

/-- The queue record with its `size` counter kept at the width of a C `int`. -/
def queue_t.at_int (q : queue_t) : queue_t :=
  { q with size := to_int q.size }

/-- The states reachable from `q_new` by finitely many successful inserts and
removes when every increment and decrement of `size` is performed at the
width of a C `int`. -/
inductive Reachable32 : Heap → queue_t → Prop
  | new (h : Heap) (q : queue_t) : q_new true = some q → Reachable32 h q
  | insert_head (h : Heap) (q : queue_t) (s : List Nat) (a : Nat) (h' : Heap) (q' : queue_t) :
      Reachable32 h q → malloc_ok h (some a) →
      q_insert_head h (some q) s (some a) true = some (true, h', some q') →
      Reachable32 h' q'.at_int
  | insert_tail (h : Heap) (q : queue_t) (s : List Nat) (a : Nat) (h' : Heap) (q' : queue_t) :
      Reachable32 h q → malloc_ok h (some a) →
      q_insert_tail h (some q) s (some a) true = some (true, h', some q') →
      Reachable32 h' q'.at_int
  | remove_head (h : Heap) (q : queue_t) (sp : Option Buffer) (n : Nat) (h' : Heap)
      (q' : queue_t) (sp' : Option Buffer) : Reachable32 h q →
      q_remove_head h (some q) sp n = some (true, h', some q', sp') →
      Reachable32 h' q'.at_int

/-- The state after `n` calls of `q_insert_head` with the empty string on a
new queue in the empty heap, the `k`-th element being allocated at address
`k`, with the `size` counter at the width of a C `int`. -/
def push_many : Nat → Heap × queue_t
  | 0 => (empty_heap, { head := none, tail := none, size := 0 })
  | n + 1 =>
    match q_insert_head (push_many n).1 (some (push_many n).2) [] (some n) true with
    | some (true, h', some q') => (h', q'.at_int)
    | _ => push_many n

/-- Insert the strings at the head, in order; every allocation succeeds and
each item carries the address that `malloc` returns for its element. -/
def insert_head_all (h : Heap) (q : Option queue_t) :
    List (Nat × List Nat) → Option (Heap × Option queue_t)
  | [] => some (h, q)
  | (a, s) :: rest =>
    match q_insert_head h q s (some a) true with
    | some (true, h1, q1) => insert_head_all h1 q1 rest
    | _ => none

end Queue

namespace Queue

/-! ## The type `int` and the two notions of queue state -/

theorem to_int_succ (x : Int) : to_int (to_int x + 1) = to_int (x + 1) := by
  unfold to_int; omega

theorem to_int_pred (x : Int) : to_int (to_int x - 1) = to_int (x - 1) := by
  unfold to_int; omega

theorem to_int_small (x : Int) (h0 : 0 ≤ x) (h1 : x < 2147483648) : to_int x = x := by
  unfold to_int; omega

theorem to_int_idem (x : Int) : to_int (to_int x) = to_int x := by
  unfold to_int; omega

theorem to_int_range (x : Int) (h0 : -2147483648 ≤ x) (h1 : x ≤ 2147483647) :
    to_int x = x := by
  unfold to_int; omega

theorem to_int_bounds (x : Int) : -2147483648 ≤ to_int x ∧ to_int x ≤ 2147483647 := by
  unfold to_int; omega

theorem wf_shape {h : Heap} {q : queue_t} {L : List Nat} (hw : wf h q L) : shape h q L := by
  obtain ⟨hc, ht, hs, hb⟩ := hw
  refine ⟨hc, ht, ?_⟩
  rw [hs]
  exact (to_int_small _ (Int.natCast_nonneg _) (by rw [hs] at hb; omega)).symm

theorem shape_wf {h : Heap} {q : queue_t} {L : List Nat} (hs : shape h q L)
    (hb : (L.length : Int) ≤ 2147483647) : wf h q L := by
  obtain ⟨hc, ht, hsz⟩ := hs
  have : q.size = (L.length : Int) :=
    hsz.trans (to_int_small _ (Int.natCast_nonneg _) (by omega))
  exact ⟨hc, ht, this, by rw [this]; exact hb⟩

theorem wf_bound {h : Heap} {q : queue_t} {L : List Nat} (hw : wf h q L) :
    (L.length : Int) ≤ 2147483647 := by
  obtain ⟨_, _, hs, hb⟩ := hw
  rw [hs] at hb; exact hb

/-! ## Heap and list-segment lemmas -/

@[simp] theorem write_same (h : Heap) (a : Nat) (c : Option list_ele_t) :
    h.write a c a = c := by
  simp [Heap.write]

theorem write_other (h : Heap) (a x : Nat) (c : Option list_ele_t) (hx : x ≠ a) :
    h.write a c x = h x := by
  simp [Heap.write, hx]

theorem write_fresh (h : Heap) (a : Nat) (hf : h a = none) : h.write a none = h := by
  funext x
  by_cases hx : x = a
  · subst hx; simp [hf]
  · simp [write_other, hx]

theorem write_write (h : Heap) (a : Nat) (c d : Option list_ele_t) :
    (h.write a c).write a d = h.write a d := by
  funext x
  by_cases hx : x = a
  · subst hx; simp
  · simp [write_other, hx]

@[simp] theorem lseg_nil (h : Heap) (p q : Option Nat) : lseg h p [] q ↔ p = q := Iff.rfl

@[simp] theorem lseg_cons (h : Heap) (p q : Option Nat) (a : Nat) (as : List Nat) :
    lseg h p (a :: as) q ↔ p = some a ∧ ∃ e, h a = some e ∧ lseg h e.next as q := Iff.rfl

@[simp] theorem chain_nil (h : Heap) (p : Option Nat) : chain h p [] ↔ p = none := Iff.rfl

@[simp] theorem chain_cons (h : Heap) (p : Option Nat) (a : Nat) (as : List Nat) :
    chain h p (a :: as) ↔ p = some a ∧ ∃ e, h a = some e ∧ chain h e.next as := Iff.rfl

theorem lseg_frame {h h' : Heap} {L : List Nat} {p q : Option Nat}
    (hs : lseg h p L q) (hf : ∀ a ∈ L, h' a = h a) : lseg h' p L q := by
  induction L generalizing p with
  | nil => simpa using hs
  | cons a as ih =>
    obtain ⟨hp, e, he, hr⟩ := hs
    refine ⟨hp, e, ?_, ih hr (fun x hx => hf x (List.mem_cons_of_mem _ hx))⟩
    rw [hf a (List.mem_cons_self _ _)]; exact he

theorem lseg_append {h : Heap} {A B : List Nat} {p r : Option Nat} :
    lseg h p (A ++ B) r ↔ ∃ q, lseg h p A q ∧ lseg h q B r := by
  induction A generalizing p with
  | nil => simp
  | cons a as ih =>
    simp only [List.cons_append, lseg_cons, ih]
    constructor
    · rintro ⟨hp, e, he, q, h1, h2⟩
      exact ⟨q, ⟨hp, e, he, h1⟩, h2⟩
    · rintro ⟨q, ⟨hp, e, he, h1⟩, h2⟩
      exact ⟨hp, e, he, q, h1, h2⟩

theorem chain_head {h : Heap} {L : List Nat} {p : Option Nat} (hc : chain h p L) :
    p = L.head? := by
  cases L with
  | nil => simpa using hc
  | cons a as => simpa using hc.1

theorem chain_unique {h : Heap} {L1 L2 : List Nat} {p : Option Nat}
    (h1 : chain h p L1) (h2 : chain h p L2) : L1 = L2 := by
  induction L1 generalizing p L2 with
  | nil =>
    cases L2 with
    | nil => rfl
    | cons b bs =>
      have := h2.1
      simp only [chain_nil] at h1
      rw [h1] at this; cases this
  | cons a as ih =>
    cases L2 with
    | nil =>
      have := h1.1
      simp only [chain_nil] at h2
      rw [h2] at this; cases this
    | cons b bs =>
      obtain ⟨hp1, e1, he1, hr1⟩ := h1
      obtain ⟨hp2, e2, he2, hr2⟩ := h2
      rw [hp1] at hp2
      cases hp2
      rw [he1] at he2
      cases he2
      rw [ih hr1 hr2]

theorem chain_alloc {h : Heap} {L : List Nat} {p : Option Nat} (hc : chain h p L)
    {a : Nat} (ha : a ∈ L) : ∃ e, h a = some e := by
  induction L generalizing p with
  | nil => cases ha
  | cons b bs ih =>
    obtain ⟨_, e, he, hr⟩ := hc
    rcases List.mem_cons.1 ha with hab | hab
    · subst hab; exact ⟨e, he⟩
    · exact ih hr hab

theorem chain_suffix {h : Heap} {A B : List Nat} {p : Option Nat}
    (hc : chain h p (A ++ B)) : chain h B.head? B := by
  obtain ⟨q, _, h2⟩ := lseg_append.1 hc
  have := chain_head h2
  rw [← this]; exact h2

theorem chain_nodup {h : Heap} {L : List Nat} {p : Option Nat} (hc : chain h p L) :
    L.Nodup := by
  induction L generalizing p with
  | nil => exact List.nodup_nil
  | cons a as ih =>
    obtain ⟨hp, e, he, hr⟩ := hc
    refine List.nodup_cons.2 ⟨?_, ih hr⟩
    intro ha
    obtain ⟨X, Y, hXY⟩ := List.append_of_mem ha
    have h1 : chain h (some a) (a :: Y) := by
      have := chain_suffix (A := X) (B := a :: Y) (hXY ▸ hr)
      simpa using this
    have h2 : chain h (some a) (a :: as) := ⟨rfl, e, he, hr⟩
    have h3 := chain_unique h1 h2
    have h4 : Y = as := by simpa using h3
    have h5 := congrArg List.length hXY
    rw [h4] at h5
    simp only [List.length_append, List.length_cons] at h5
    omega

/-! ## Insertion and removal -/

theorem snprintf_str_full (s : List Nat) : snprintf_str (s.length + 1) s = s := by
  simp [snprintf_str]

theorem value_at_write_other (h : Heap) (a x : Nat) (c : Option list_ele_t) (hx : x ≠ a) :
    value_at (h.write a c) x = value_at h x := by
  simp [value_at, write_other, hx]

theorem vals_frame {h h' : Heap} {L : List Nat}
    (hf : ∀ a ∈ L, value_at h' a = value_at h a) : vals h' L = vals h L := by
  unfold vals
  exact List.map_congr_left hf

theorem not_mem_of_fresh {h : Heap} {L : List Nat} {p : Option Nat} (hc : chain h p L)
    {a : Nat} (hf : h a = none) : a ∉ L := by
  intro ha
  obtain ⟨e, he⟩ := chain_alloc hc ha
  rw [hf] at he; cases he

theorem q_insert_head_eq (h : Heap) (q : queue_t) (s : List Nat) (a : Nat) :
    q_insert_head h (some q) s (some a) true =
      some (true, h.write a (some { value := some s, next := q.head }),
        some { head := some a, tail := if q.tail = none then some a else q.tail,
               size := to_int (q.size + 1) }) := by
  simp only [q_insert_head, create_ele, write_write, write_same, snprintf_str_full, if_true]
  by_cases ht : q.tail = none <;> simp [ht]

theorem shape_insert_head {h : Heap} {q : queue_t} {A : List Nat} (s : List Nat) {a : Nat}
    (hw : shape h q A) (hf : h a = none) :
    shape (h.write a (some { value := some s, next := q.head }))
      { head := some a, tail := if q.tail = none then some a else q.tail, size := to_int (q.size + 1) }
      (a :: A) := by
  obtain ⟨hc, ht, hs⟩ := hw
  have hna : a ∉ A := not_mem_of_fresh hc hf
  refine ⟨⟨rfl, _, write_same _ _ _, ?_⟩, ?_, ?_⟩
  · refine lseg_frame hc (fun x hx => write_other _ _ _ _ ?_)
    rintro rfl; exact hna hx
  · cases A with
    | nil => simp at ht; simp [ht]
    | cons b bs =>
      have : q.tail ≠ none := by rw [ht]; simp [List.getLast?_cons]
      rw [if_neg this, ht, List.getLast?_cons_cons]
  · show to_int (q.size + 1) = to_int ((a :: A).length : Int)
    rw [hs, to_int_succ]
    simp

theorem vals_insert_head {h : Heap} {A : List Nat} {p : Option Nat} (s : List Nat) {a : Nat}
    (n : Option Nat) (hc : chain h p A) (hf : h a = none) :
    vals (h.write a (some { value := some s, next := n })) (a :: A) = some s :: vals h A := by
  have hna : a ∉ A := not_mem_of_fresh hc hf
  show value_at _ a :: vals _ A = _
  congr 1
  · simp [value_at]
  · refine vals_frame (fun x hx => value_at_write_other _ _ _ _ ?_)
    rintro rfl; exact hna hx

/-- The heap and queue after a successful `q_insert_tail` on a well-formed
queue. -/
theorem q_insert_tail_ok {h : Heap} {q : queue_t} {A : List Nat} (s : List Nat) {a : Nat}
    (hw : shape h q A) (hf : h a = none) :
    ∃ h' q', q_insert_tail h (some q) s (some a) true = some (true, h', some q') ∧
      shape h' q' (A ++ [a]) ∧ vals h' (A ++ [a]) = vals h A ++ [some s] ∧
      q'.head = (if A = [] then some a else q.head) ∧
      (∀ x, h x = none → x ≠ a → h' x = none) := by
  obtain ⟨hc, ht, hs⟩ := hw
  have hna : a ∉ A := not_mem_of_fresh hc hf
  rcases List.eq_nil_or_concat A with hA | ⟨B, t, hA⟩
  · subst hA
    simp only [List.getLast?_nil] at ht
    simp only [chain_nil] at hc
    refine ⟨h.write a (some { value := some s, next := none }),
      { head := some a, tail := some a, size := to_int (q.size + 1) }, ?_, ⟨?_, ?_, ?_⟩, ?_, ?_, ?_⟩
    · simp only [q_insert_tail, create_ele, write_write, snprintf_str_full, if_true, ht]
    · exact ⟨rfl, _, write_same _ _ _, rfl⟩
    · simp
    · show to_int (q.size + 1) = to_int ((([] : List Nat) ++ [a]).length : Int)
      rw [hs, to_int_succ]
      simp
    · simp [vals, value_at]
    · simp
    · intro x hx hxa; rw [write_other _ _ _ _ hxa]; exact hx
  · rw [List.concat_eq_append] at hA
    subst hA
    have ht' : q.tail = some t := by rw [ht]; simp
    obtain ⟨r, hB, hT⟩ := lseg_append.1 hc
    obtain ⟨hr, e, he, hen⟩ := hT
    simp only [lseg_nil] at hen
    have hnd := chain_nodup hc
    have htB : t ∉ B := by
      intro hm
      have := List.nodup_append.1 hnd
      exact this.2.2 hm (List.mem_singleton_self t)
    have hta : t ≠ a := by
      rintro rfl; exact hna (by simp)
    have haB : a ∉ B := fun hm => hna (by simp [hm])
    have h1t : (h.write a (some { value := some s, next := none })) t = some e := by
      rw [write_other _ _ _ _ hta]; exact he
    refine ⟨(h.write a (some { value := some s, next := none })).write t
        (some { e with next := some a }),
      { q with tail := some a, size := to_int (q.size + 1) }, ?_, ⟨?_, ?_, ?_⟩, ?_, ?_, ?_⟩
    · simp only [q_insert_tail, create_ele, write_write, snprintf_str_full, if_true, ht', h1t]
    · show chain _ q.head ((B ++ [t]) ++ [a])
      rw [List.append_assoc]
      refine lseg_append.2 ⟨r, ?_, ?_⟩
      · refine lseg_frame hB (fun x hx => ?_)
        have hxt : x ≠ t := by rintro rfl; exact htB hx
        have hxa : x ≠ a := by rintro rfl; exact haB hx
        rw [write_other _ _ _ _ hxt, write_other _ _ _ _ hxa]
      · refine ⟨hr, _, write_same _ _ _, rfl, { value := some s, next := none }, ?_, rfl⟩
        rw [write_other _ _ _ _ (Ne.symm hta), write_same]
    · simp
    · show to_int (q.size + 1) = to_int (((B ++ [t]) ++ [a]).length : Int)
      rw [hs, to_int_succ]
      congr 1
      simp only [List.length_append, List.length_cons, List.length_nil]
      push_cast
      ring
    · simp only [vals, List.map_append, List.map_cons, List.map_nil]
      have e1 : ∀ x ∈ B, value_at ((h.write a (some { value := some s, next := none })).write t
          (some { e with next := some a })) x = value_at h x := by
        intro x hx
        have hxt : x ≠ t := by rintro rfl; exact htB hx
        have hxa : x ≠ a := by rintro rfl; exact haB hx
        rw [value_at_write_other _ _ _ _ hxt, value_at_write_other _ _ _ _ hxa]
      rw [List.map_congr_left e1]
      simp [value_at, write_other _ _ _ _ (Ne.symm hta), he]
    · simp
    · intro x hx hxa
      have hxt : x ≠ t := by rintro rfl; rw [he] at hx; cases hx
      rw [write_other _ _ _ _ hxt, write_other _ _ _ _ hxa]; exact hx

theorem q_remove_head_eq {h : Heap} {q : queue_t} {x : Nat} {e : list_ele_t}
    (hq : q.head = some x) (he : h x = some e) (sp : Option Buffer) (n : Nat) :
    q_remove_head h (some q) sp n =
      some (true, h.write x none,
        some { head := e.next, tail := if e.next = none then none else q.tail,
               size := to_int (q.size - 1) },
        match sp, e.value with
        | some b, some v => some (snprintf b n v)
        | _, _ => sp) := by
  simp only [q_remove_head, hq, he]
  by_cases hn : e.next = none <;> simp [hn]

theorem shape_remove_head {h : Heap} {q : queue_t} {x : Nat} {A : List Nat} {e : list_ele_t}
    (hw : shape h q (x :: A)) (he : h x = some e) :
    shape (h.write x none)
      { head := e.next, tail := if e.next = none then none else q.tail, size := to_int (q.size - 1) }
      A ∧ vals (h.write x none) A = vals h A := by
  obtain ⟨hc, ht, hs⟩ := hw
  have hnd := chain_nodup hc
  have hxA : x ∉ A := (List.nodup_cons.1 hnd).1
  obtain ⟨_, e', he', hr⟩ := hc
  rw [he] at he'; cases he'
  refine ⟨⟨?_, ?_, ?_⟩, ?_⟩
  · refine lseg_frame hr (fun y hy => write_other _ _ _ _ ?_)
    rintro rfl; exact hxA hy
  · cases A with
    | nil =>
      have hr' : e.next = none := hr
      simp [hr']
    | cons b bs =>
      have hb := chain_head hr
      rw [List.head?_cons] at hb
      simp only [hb, ht, List.getLast?_cons_cons]
      rfl
  · show to_int (q.size - 1) = to_int (A.length : Int)
    rw [hs, to_int_pred]
    simp
  · refine vals_frame (fun y hy => value_at_write_other _ _ _ _ ?_)
    rintro rfl; exact hxA hy

/-! ## Reversal -/

theorem same_values_refl (h : Heap) : same_values h h := fun _ => rfl

theorem same_values_trans {h1 h2 h3 : Heap} (h12 : same_values h1 h2)
    (h23 : same_values h2 h3) : same_values h1 h3 := fun x => (h23 x).trans (h12 x)

theorem same_values_relink {h : Heap} {a : Nat} {e : list_ele_t} (he : h a = some e)
    (n : Option Nat) : same_values h (h.write a (some { e with next := n })) := by
  intro x
  by_cases hx : x = a
  · subst hx; simp [he]
  · rw [write_other _ _ _ _ hx]

theorem same_values_value_at {h h' : Heap} (hv : same_values h h') (a : Nat) :
    value_at h' a = value_at h a := by
  have := hv a
  unfold value_at
  cases h1 : h a <;> cases h2 : h' a <;> simp [h1, h2] at this ⊢
  exact this

theorem same_values_vals {h h' : Heap} (hv : same_values h h') (L : List Nat) :
    vals h' L = vals h L :=
  vals_frame (fun a _ => same_values_value_at hv a)

theorem reverse_loop_ok (R : List Nat) : ∀ (P : List Nat) (h : Heap) (prev head : Option Nat)
    (fuel : Nat), chain h head R → chain h prev P → (∀ x ∈ R, x ∉ P) → R.length ≤ fuel →
    ∃ h' p', reverse_loop fuel h prev head = some (h', p') ∧
      chain h' p' (R.reverse ++ P) ∧ (∀ x, x ∉ R → h' x = h x) ∧ same_values h h' := by
  induction R with
  | nil =>
    intro P h prev head fuel hR hP _ _
    simp only [chain_nil] at hR
    subst hR
    refine ⟨h, prev, ?_, by simpa using hP, fun _ _ => rfl, same_values_refl h⟩
    unfold reverse_loop; rfl
  | cons a R ih =>
    intro P h prev head fuel hR hP hd hfuel
    have hnd := chain_nodup hR
    have haR : a ∉ R := (List.nodup_cons.1 hnd).1
    obtain ⟨hp, e, he, hr⟩ := hR
    subst hp
    cases fuel with
    | zero => simp at hfuel
    | succ fuel =>
      have haP : a ∉ P := hd a (List.mem_cons_self _ _)
      have hR1 : chain (h.write a (some { e with next := prev })) e.next R := by
        refine lseg_frame hr (fun x hx => write_other _ _ _ _ ?_)
        rintro rfl; exact haR hx
      have hP1 : chain (h.write a (some { e with next := prev })) (some a) (a :: P) := by
        refine ⟨rfl, _, write_same _ _ _, ?_⟩
        refine lseg_frame hP (fun x hx => write_other _ _ _ _ ?_)
        rintro rfl; exact haP hx
      have hd1 : ∀ x ∈ R, x ∉ a :: P := by
        intro x hx hxa
        rcases List.mem_cons.1 hxa with rfl | hxP
        · exact haR hx
        · exact hd x (List.mem_cons_of_mem _ hx) hxP
      obtain ⟨h', p', hrun, hc', hfr, hsv⟩ :=
        ih (a :: P) _ (some a) e.next fuel hR1 hP1 hd1 (by simpa using hfuel)
      refine ⟨h', p', ?_, ?_, ?_, ?_⟩
      · unfold reverse_loop
        simp only [he]
        exact hrun
      · simpa using hc'
      · intro x hx
        have hxa : x ≠ a := fun hxa => hx (hxa ▸ List.mem_cons_self _ _)
        rw [hfr x (fun hm => hx (List.mem_cons_of_mem _ hm)), write_other _ _ _ _ hxa]
      · exact same_values_trans (same_values_relink he prev) hsv

/-- The heap and queue after `q_reverse` on a well-formed queue. -/
theorem q_reverse_ok {h : Heap} {q : queue_t} {A : List Nat} {fuel : Nat}
    (hw : shape h q A) (hfuel : A.length ≤ fuel) :
    ∃ h' q', q_reverse fuel h (some q) = some (h', some q') ∧ shape h' q' A.reverse ∧
      same_values h h' ∧ (∀ x, x ∉ A → h' x = h x) ∧
      q'.head = q.tail ∧ q'.tail = q.head ∧ q'.size = q.size := by
  obtain ⟨hc, ht, hs⟩ := hw
  cases A with
  | nil =>
    have hq : q.head = none := hc
    refine ⟨h, q, ?_, ⟨by simpa using hc, by simpa using ht, by simpa using hs⟩,
      same_values_refl h, fun _ _ => rfl, ?_, ?_, rfl⟩
    · simp [q_reverse, hq]
    · rw [hq, ht]; rfl
    · rw [hq, ht]; rfl
  | cons a A =>
    have hq : q.head = some a := hc.1
    obtain ⟨h', p', hrun, hc', hfr, hsv⟩ :=
      reverse_loop_ok (a :: A) [] h none q.head fuel hc rfl (fun _ _ => List.not_mem_nil _) hfuel
    rw [List.append_nil] at hc'
    have hp' := chain_head hc'
    rw [List.head?_reverse] at hp'
    rw [hq] at hrun
    refine ⟨h', { q with tail := some a, head := p' }, ?_, ⟨hc', ?_, ?_⟩, hsv, hfr, ?_, ?_, rfl⟩
    · simp [q_reverse, hq, reverse, hrun]
    · simp
    · simpa using hs
    · show p' = q.tail
      rw [hp', ht]
    · show some a = q.head
      rw [hq]

/-! ## Merging -/

theorem take_left_eq {h : Heap} {l r : Nat} {el er : list_ele_t} (hl : h l = some el)
    (hr : h r = some er) : take_left h l r = some (le_elem h l r) := by
  unfold take_left le_elem le_value value_at
  rw [hl, hr]
  obtain ⟨vl, _⟩ := el
  obtain ⟨vr, _⟩ := er
  cases vl <;> cases vr <;> rfl

theorem le_elem_congr {h h' : Heap} (hv : same_values h h') : le_elem h' = le_elem h := by
  funext a b
  unfold le_elem
  rw [same_values_value_at hv a, same_values_value_at hv b]

theorem merge_loop_exit (fuel : Nat) (h : Heap) (head indirect left right : Option Nat)
    (hx : left = none ∨ right = none) :
    merge_loop fuel h head indirect left right =
      store_indirect h head indirect (if left = none then right else left) := by
  unfold merge_loop
  rcases hx with rfl | rfl
  · rfl
  · cases left <;> rfl

/-- The effect of the assignment `*indirect = p`. -/
theorem store_indirect_ok (h : Heap) (head indirect p : Option Nat)
    (hi : ∀ d, indirect = some d → ∃ e, h d = some e) :
    ∃ h1 head1, store_indirect h head indirect p = some (h1, head1) ∧
      load_indirect h1 head1 indirect = some p ∧
      (indirect = none → head1 = p) ∧
      (∀ d, indirect = some d → head1 = head ∧
        ∃ e, h d = some e ∧ h1 d = some { e with next := p }) ∧
      (∀ x, indirect ≠ some x → h1 x = h x) ∧ same_values h h1 := by
  cases indirect with
  | none =>
    exact ⟨h, p, rfl, rfl, fun _ => rfl, fun d hd => (by cases hd), fun _ _ => rfl,
      same_values_refl h⟩
  | some d =>
    obtain ⟨e, he⟩ := hi d rfl
    refine ⟨h.write d (some { e with next := p }), head, ?_, ?_, fun hd => (by cases hd), ?_, ?_,
      same_values_relink he p⟩
    · simp [store_indirect, he]
    · simp [load_indirect]
    · intro d' hd'
      cases hd'
      exact ⟨rfl, e, he, write_same _ _ _⟩
    · intro x hx
      exact write_other _ _ _ _ (fun hxd => hx (by rw [hxd]))

theorem merge_exit_ok {h : Heap} {M : List Nat} {p : Option Nat} (head indirect : Option Nat)
    (hc : chain h p M) (hi : ∀ d, indirect = some d → d ∉ M ∧ ∃ e, h d = some e) :
    ∃ h' head', store_indirect h head indirect p = some (h', head') ∧
      chain h' M.head? M ∧ (indirect = none → head' = M.head?) ∧
      (∀ d, indirect = some d → head' = head ∧
        ∃ e, h d = some e ∧ h' d = some { e with next := M.head? }) ∧
      (∀ x, indirect ≠ some x → h' x = h x) ∧ same_values h h' := by
  have hp := chain_head hc
  subst hp
  obtain ⟨h1, head1, hst, _, hA, hB, hF, hV⟩ :=
    store_indirect_ok h head indirect M.head? (fun d hd => (hi d hd).2)
  refine ⟨h1, head1, hst, ?_, hA, hB, hF, hV⟩
  refine lseg_frame hc (fun a ha => hF a ?_)
  intro hia
  exact (hi a hia).1 ha

theorem merge_loop_ok (le : Nat → Nat → Bool) : ∀ (fuel : Nat) (Lr Rr : List Nat) (h : Heap)
    (head indirect left right : Option Nat),
    le_elem h = le → chain h left Lr → chain h right Rr → (∀ x ∈ Lr, x ∉ Rr) →
    (∀ d, indirect = some d → d ∉ Lr ∧ d ∉ Rr ∧ ∃ e, h d = some e) →
    Lr.length + Rr.length ≤ fuel →
    ∃ h' head', merge_loop fuel h head indirect left right = some (h', head') ∧
      chain h' (List.merge Lr Rr le).head? (List.merge Lr Rr le) ∧
      (indirect = none → head' = (List.merge Lr Rr le).head?) ∧
      (∀ d, indirect = some d → head' = head ∧
        ∃ e, h d = some e ∧ h' d = some { e with next := (List.merge Lr Rr le).head? }) ∧
      (∀ x, x ∉ Lr → x ∉ Rr → indirect ≠ some x → h' x = h x) ∧ same_values h h' := by
  intro fuel
  induction fuel with
  | zero =>
    intro Lr Rr h head indirect left right _ hL hR _ hi hfuel
    have hLn : Lr = [] := List.length_eq_zero.1 (by omega)
    have hRn : Rr = [] := List.length_eq_zero.1 (by omega)
    subst hLn hRn
    have hl : left = none := hL
    have hr : right = none := hR
    subst hl hr
    obtain ⟨h', head', hst, hc, hA, hB, hF, hV⟩ :=
      merge_exit_ok (M := []) head indirect hR (fun d hd => ⟨List.not_mem_nil _, (hi d hd).2.2⟩)
    refine ⟨h', head', ?_, by simp, by simpa using hA, by simpa using hB,
      fun x _ _ hx => hF x hx, hV⟩
    rw [merge_loop_exit _ _ _ _ _ _ (Or.inl rfl)]
    simpa using hst
  | succ fuel ih =>
    intro Lr Rr h head indirect left right hle hL hR hd hi hfuel
    cases Lr with
    | nil =>
      have hl : left = none := hL
      subst hl
      obtain ⟨h', head', hst, hc, hA, hB, hF, hV⟩ :=
        merge_exit_ok (M := Rr) head indirect hR (fun d hd => ⟨(hi d hd).2.1, (hi d hd).2.2⟩)
      refine ⟨h', head', ?_, by simpa using hc, by simpa using hA, by simpa using hB,
        fun x _ _ hx => hF x hx, hV⟩
      rw [merge_loop_exit _ _ _ _ _ _ (Or.inl rfl)]
      simpa using hst
    | cons l L =>
      cases Rr with
      | nil =>
        have hr : right = none := hR
        subst hr
        have hl : left = some l := hL.1
        obtain ⟨h', head', hst, hc, hA, hB, hF, hV⟩ :=
          merge_exit_ok (M := l :: L) head indirect hL (fun d hd => ⟨(hi d hd).1, (hi d hd).2.2⟩)
        refine ⟨h', head', ?_, by simpa using hc, by simpa using hA, by simpa using hB,
          fun x _ _ hx => hF x hx, hV⟩
        rw [merge_loop_exit _ _ _ _ _ _ (Or.inr rfl)]
        simpa [hl] using hst
      | cons r R =>
        have hndL := chain_nodup hL
        have hndR := chain_nodup hR
        have hlL : l ∉ L := (List.nodup_cons.1 hndL).1
        have hrR : r ∉ R := (List.nodup_cons.1 hndR).1
        obtain ⟨hl, el, hel, hLt⟩ := hL
        obtain ⟨hr, er, her, hRt⟩ := hR
        subst hl hr
        have hi0 : ∀ d, indirect = some d → ∃ e, h d = some e := fun d hd => (hi d hd).2.2
        have hlr : l ≠ r := by
          rintro rfl
          exact hd l (List.mem_cons_self _ _) (List.mem_cons_self _ _)
        cases hb : le l r with
        | true =>
          obtain ⟨h1, head1, hst, hld, hA1, hB1, hF1, hV1⟩ :=
            store_indirect_ok h head indirect (some l) hi0
          have hil : indirect ≠ some l := fun hx => (hi l hx).1 (List.mem_cons_self _ _)
          have h1l : h1 l = some el := by rw [hF1 l hil]; exact hel
          have hfr1 : ∀ x, x ∈ l :: L ∨ x ∈ r :: R → h1 x = h x := by
            intro x hx
            refine hF1 x (fun hix => ?_)
            rcases hx with hx | hx
            · exact (hi x hix).1 hx
            · exact (hi x hix).2.1 hx
          have hL1 : chain h1 el.next L :=
            lseg_frame hLt (fun x hx => hfr1 x (Or.inl (List.mem_cons_of_mem _ hx)))
          have hR1 : chain h1 (some r) (r :: R) :=
            lseg_frame (show chain h (some r) (r :: R) from ⟨rfl, er, her, hRt⟩)
              (fun x hx => hfr1 x (Or.inr hx))
          obtain ⟨h', head', hrun, hc, _, hB, hF, hV⟩ :=
            ih L (r :: R) h1 head1 (some l) el.next (some r)
              ((le_elem_congr hV1).trans hle) hL1 hR1
              (fun x hx => hd x (List.mem_cons_of_mem _ hx))
              (fun d hdl => by
                cases hdl
                exact ⟨hlL, hd _ (List.mem_cons_self _ _), el, h1l⟩)
              (by simp only [List.length_cons] at hfuel ⊢; omega)
          obtain ⟨hh, el', hel', hl'⟩ := hB l rfl
          rw [h1l] at hel'
          cases hel'
          have hM : List.merge (l :: L) (r :: R) le = l :: List.merge L (r :: R) le :=
            List.cons_merge_cons_pos le L R hb
          rw [hM]
          refine ⟨h', head', ?_, ⟨rfl, _, hl', hc⟩, ?_, ?_, ?_, same_values_trans hV1 hV⟩
          · unfold merge_loop
            simp only [take_left_eq hel her, hle, hb, hst, h1l, hld]
            exact hrun
          · intro hin
            rw [hh, hA1 hin]; rfl
          · intro d hdi
            obtain ⟨hh1, e, he, h1d⟩ := hB1 d hdi
            refine ⟨hh.trans hh1, e, he, ?_⟩
            have hdl : d ≠ l := by
              rintro rfl; exact hil hdi
            rw [hF d (fun hx => (hi d hdi).1 (List.mem_cons_of_mem _ hx)) (hi d hdi).2.1
              (fun hx => hdl (Option.some.inj hx).symm), h1d]
            rfl
          · intro x hxL hxR hix
            have hxl : x ≠ l := fun hx => hxL (hx ▸ List.mem_cons_self _ _)
            rw [hF x (fun hx => hxL (List.mem_cons_of_mem _ hx)) hxR
              (fun hx => hxl (Option.some.inj hx).symm), hF1 x hix]
        | false =>
          obtain ⟨h1, head1, hst, hld, hA1, hB1, hF1, hV1⟩ :=
            store_indirect_ok h head indirect (some r) hi0
          have hir : indirect ≠ some r := fun hx => (hi r hx).2.1 (List.mem_cons_self _ _)
          have h1r : h1 r = some er := by rw [hF1 r hir]; exact her
          have hfr1 : ∀ x, x ∈ l :: L ∨ x ∈ r :: R → h1 x = h x := by
            intro x hx
            refine hF1 x (fun hix => ?_)
            rcases hx with hx | hx
            · exact (hi x hix).1 hx
            · exact (hi x hix).2.1 hx
          have hL1 : chain h1 (some l) (l :: L) :=
            lseg_frame (show chain h (some l) (l :: L) from ⟨rfl, el, hel, hLt⟩)
              (fun x hx => hfr1 x (Or.inl hx))
          have hR1 : chain h1 er.next R :=
            lseg_frame hRt (fun x hx => hfr1 x (Or.inr (List.mem_cons_of_mem _ hx)))
          obtain ⟨h', head', hrun, hc, _, hB, hF, hV⟩ :=
            ih (l :: L) R h1 head1 (some r) (some l) er.next
              ((le_elem_congr hV1).trans hle) hL1 hR1
              (fun x hx hxR => hd x hx (List.mem_cons_of_mem _ hxR))
              (fun d hdl => by
                cases hdl
                exact ⟨fun hx => hd _ hx (List.mem_cons_self _ _), hrR, er, h1r⟩)
              (by simp only [List.length_cons] at hfuel ⊢; omega)
          obtain ⟨hh, er', her', hr'⟩ := hB r rfl
          rw [h1r] at her'
          cases her'
          have hM : List.merge (l :: L) (r :: R) le = r :: List.merge (l :: L) R le :=
            List.cons_merge_cons_neg le L R (by simp [hb])
          rw [hM]
          refine ⟨h', head', ?_, ⟨rfl, _, hr', hc⟩, ?_, ?_, ?_, same_values_trans hV1 hV⟩
          · unfold merge_loop
            simp only [take_left_eq hel her, hle, hb, hst, h1r, hld]
            exact hrun
          · intro hin
            rw [hh, hA1 hin]; rfl
          · intro d hdi
            obtain ⟨hh1, e, he, h1d⟩ := hB1 d hdi
            refine ⟨hh.trans hh1, e, he, ?_⟩
            have hdr : d ≠ r := by
              rintro rfl; exact hir hdi
            rw [hF d (hi d hdi).1 (fun hx => (hi d hdi).2.1 (List.mem_cons_of_mem _ hx))
              (fun hx => hdr (Option.some.inj hx).symm), h1d]
            rfl
          · intro x hxL hxR hix
            have hxr : x ≠ r := fun hx => hxR (hx ▸ List.mem_cons_self _ _)
            rw [hF x hxL (fun hx => hxR (List.mem_cons_of_mem _ hx))
              (fun hx => hxr (Option.some.inj hx).symm), hF1 x hix]

theorem merge_ok {h : Heap} {L R : List Nat} {left right : Option Nat} {fuel : Nat}
    (hL : chain h left L) (hR : chain h right R) (hd : ∀ x ∈ L, x ∉ R)
    (hfuel : L.length + R.length ≤ fuel) :
    ∃ h' p', merge fuel h left right = some (h', p') ∧
      chain h' p' (List.merge L R (le_elem h)) ∧
      (∀ x, x ∉ L → x ∉ R → h' x = h x) ∧ same_values h h' := by
  obtain ⟨h', head', hrun, hc, hA, _, hF, hV⟩ :=
    merge_loop_ok (le_elem h) fuel L R h none none left right rfl hL hR hd
      (fun d hdn => by cases hdn) hfuel
  refine ⟨h', head', hrun, ?_, fun x hxL hxR => hF x hxL hxR (fun hx => by cases hx), hV⟩
  rw [hA rfl]; exact hc

/-! ## Splitting and sorting -/

theorem split_loop_ok : ∀ (fuel : Nat) (F S : List Nat) (h : Heap) (fast slow : Option Nat),
    chain h fast F → chain h slow S → F.length / 2 < S.length → F.length / 2 ≤ fuel →
    split_loop fuel h fast slow = some (S.drop (F.length / 2)).head? := by
  intro fuel
  induction fuel with
  | zero =>
    intro F S h fast slow hF hS _ hfuel
    have hs := chain_head hS
    match F, hF, hfuel with
    | [], hF, _ =>
      have hf : fast = none := hF
      subst hf
      unfold split_loop
      simp [hs]
    | [f], hF, _ =>
      obtain ⟨hf, fe, hfe, hn⟩ := hF
      have hn' : fe.next = none := hn
      subst hf
      unfold split_loop
      simp [hfe, hn', hs]
    | _ :: _ :: F, _, hfuel =>
      simp only [List.length_cons] at hfuel
      omega
  | succ fuel ih =>
    intro F S h fast slow hF hS hlen hfuel
    have hs := chain_head hS
    match F, hF, hlen, hfuel with
    | [], hF, _, _ =>
      have hf : fast = none := hF
      subst hf
      unfold split_loop
      simp [hs]
    | [f], hF, _, _ =>
      obtain ⟨hf, fe, hfe, hn⟩ := hF
      have hn' : fe.next = none := hn
      subst hf
      unfold split_loop
      simp [hfe, hn', hs]
    | f :: f2 :: F, hF, hlen, hfuel =>
      obtain ⟨hf, fe, hfe, hf2, f2e, hf2e, hFt⟩ := hF
      subst hf
      have hk : (f :: f2 :: F).length / 2 = F.length / 2 + 1 := by
        simp only [List.length_cons]; omega
      rw [hk] at hlen hfuel ⊢
      cases S with
      | nil => simp at hlen
      | cons s S =>
        obtain ⟨hsl, se, hse, hSt⟩ := hS
        subst hsl
        have := ih F S h f2e.next se.next hFt hSt
          (by simp only [List.length_cons] at hlen; omega) (by omega)
        unfold split_loop
        simp only [hfe, hf2, hf2e, hse]
        rw [this]
        rfl

/-- Cutting a list after the element `s`: the cells before and including `s`
become a list of their own, the cells after `s` are untouched. -/
theorem chain_cut {h : Heap} {A B : List Nat} {p : Option Nat} {s : Nat}
    (hc : chain h p (A ++ s :: B)) :
    ∃ se, h s = some se ∧
      chain (h.write s (some { se with next := none })) p (A ++ [s]) ∧
      chain (h.write s (some { se with next := none })) se.next B := by
  have hnd := chain_nodup hc
  obtain ⟨q, hA, hq, se, hse, hB⟩ := lseg_append.1 hc
  have hsA : s ∉ A := by
    intro hm
    exact (List.nodup_append.1 hnd).2.2 hm (List.mem_cons_self _ _)
  have hsB : s ∉ B := by
    have := (List.nodup_append.1 hnd).2.1
    exact (List.nodup_cons.1 this).1
  refine ⟨se, hse, ?_, ?_⟩
  · refine lseg_append.2 ⟨q, ?_, hq, _, write_same _ _ _, rfl⟩
    refine lseg_frame hA (fun x hx => write_other _ _ _ _ ?_)
    rintro rfl; exact hsA hx
  · refine lseg_frame hB (fun x hx => write_other _ _ _ _ ?_)
    rintro rfl; exact hsB hx

theorem mergeSort_cons_cons (le : Nat → Nat → Bool) (a b : Nat) (T : List Nat) :
    (a :: b :: T).mergeSort le =
      List.merge (((a :: b :: T).take ((T.length + 3) / 2)).mergeSort le)
        (((a :: b :: T).drop ((T.length + 3) / 2)).mergeSort le) le := by
  rw [List.mergeSort]
  simp only [List.splitInTwo_fst, List.splitInTwo_snd, List.length_cons]

theorem merge_sort_small (depth fuel : Nat) {h : Heap} {p : Option Nat} {L : List Nat}
    (hc : chain h p L) (hlen : L.length ≤ 1) : merge_sort depth fuel h p = some (h, p) := by
  match L, hc, hlen with
  | [], hc, _ =>
    have hp : p = none := hc
    subst hp
    unfold merge_sort; rfl
  | [a], hc, _ =>
    obtain ⟨hp, e, he, hn⟩ := hc
    have hn' : e.next = none := hn
    subst hp
    unfold merge_sort
    simp [he, hn']
  | _ :: _ :: _, _, hlen => simp at hlen

theorem merge_sort_ok (le : Nat → Nat → Bool) : ∀ (depth : Nat) (L : List Nat) (h : Heap)
    (p : Option Nat) (fuel : Nat), le_elem h = le → chain h p L → L.length ≤ 2 ^ depth →
    L.length ≤ fuel →
    ∃ h' p', merge_sort depth fuel h p = some (h', p') ∧ chain h' p' (L.mergeSort le) ∧
      (∀ x, x ∉ L → h' x = h x) ∧ same_values h h' := by
  intro depth
  induction depth with
  | zero =>
    intro L h p fuel _ hc hlen _
    have hlen1 : L.length ≤ 1 := by simpa using hlen
    refine ⟨h, p, merge_sort_small 0 fuel hc hlen1, ?_, fun _ _ => rfl, same_values_refl h⟩
    match L, hc, hlen1 with
    | [], hc, _ => simpa using hc
    | [a], hc, _ => simpa using hc
    | _ :: _ :: _, _, hlen1 => simp at hlen1
  | succ depth ih =>
    intro L h p fuel hle hc hlen hfuel
    match L, hc, hlen, hfuel with
    | [], hc, _, _ =>
      exact ⟨h, p, merge_sort_small _ fuel hc (by simp), by simpa using hc, fun _ _ => rfl,
        same_values_refl h⟩
    | [a], hc, _, _ =>
      exact ⟨h, p, merge_sort_small _ fuel hc (by simp), by simpa using hc, fun _ _ => rfl,
        same_values_refl h⟩
    | a :: b :: T, hc, hlen, hfuel =>
      have hnd := chain_nodup hc
      have hc0 := hc
      obtain ⟨hp, ea, hea, hb, eb, heb, hT⟩ := hc
      subst hp
      have hk : ((b :: T).length / 2) + 1 = (T.length + 3) / 2 := by
        simp only [List.length_cons]; omega
      have hkl : (b :: T).length / 2 < (a :: b :: T).length := by
        simp only [List.length_cons]; omega
      have hsplit := split_loop_ok fuel (b :: T) (a :: b :: T) h (some b) (some a)
        ⟨rfl, eb, heb, hT⟩ hc0 hkl (by simp only [List.length_cons] at hfuel ⊢; omega)
      rw [List.head?_drop, List.getElem?_eq_getElem hkl] at hsplit
      have hL : (a :: b :: T) = (a :: b :: T).take ((b :: T).length / 2) ++
          (a :: b :: T)[(b :: T).length / 2] :: (a :: b :: T).drop ((b :: T).length / 2 + 1) := by
        rw [← List.drop_eq_getElem_cons hkl, List.take_append_drop]
      have hc1 := hc0
      rw [hL] at hc1
      obtain ⟨se, hse, hA, hB⟩ := chain_cut hc1
      have htake : (a :: b :: T).take ((b :: T).length / 2) ++ [(a :: b :: T)[(b :: T).length / 2]]
          = (a :: b :: T).take ((T.length + 3) / 2) := by
        rw [← hk, ← List.take_concat_get _ _ hkl, List.concat_eq_append]
      rw [htake] at hA
      rw [hk] at hB
      have hAB : (a :: b :: T).take ((T.length + 3) / 2) ++ (a :: b :: T).drop ((T.length + 3) / 2)
          = a :: b :: T := List.take_append_drop _ _
      have hndAB : ((a :: b :: T).take ((T.length + 3) / 2) ++
          (a :: b :: T).drop ((T.length + 3) / 2)).Nodup := by rw [hAB]; exact hnd
      have hdisj : ∀ x ∈ (a :: b :: T).take ((T.length + 3) / 2),
          x ∉ (a :: b :: T).drop ((T.length + 3) / 2) :=
        fun x hx hx' => (List.nodup_append.1 hndAB).2.2 hx hx'
      have hpow : 2 ^ (depth + 1) = 2 * 2 ^ depth := by rw [pow_succ]; ring
      have hlenA : ((a :: b :: T).take ((T.length + 3) / 2)).length = (T.length + 3) / 2 := by
        rw [List.length_take]; simp only [List.length_cons]; omega
      have hlenB : ((a :: b :: T).drop ((T.length + 3) / 2)).length
          = T.length + 2 - (T.length + 3) / 2 := by
        rw [List.length_drop]; simp only [List.length_cons]
      simp only [List.length_cons] at hlen hfuel
      have hV1 : same_values h (h.write (a :: b :: T)[(b :: T).length / 2]
          (some { se with next := none })) := same_values_relink hse none
      obtain ⟨h2, left, hrun2, hc2, hF2, hV2⟩ := ih _ _ (some a) fuel
        ((le_elem_congr hV1).trans hle) hA (by rw [hlenA]; omega) (by rw [hlenA]; omega)
      have hB2 : chain h2 se.next ((a :: b :: T).drop ((T.length + 3) / 2)) :=
        lseg_frame hB (fun x hx => hF2 x (fun hx' => hdisj x hx' hx))
      obtain ⟨h3, right, hrun3, hc3, hF3, hV3⟩ := ih _ h2 se.next fuel
        ((le_elem_congr (same_values_trans hV1 hV2)).trans hle) hB2
        (by rw [hlenB]; omega) (by rw [hlenB]; omega)
      have hc2' : chain h3 left (((a :: b :: T).take ((T.length + 3) / 2)).mergeSort le) :=
        lseg_frame hc2 (fun x hx => hF3 x (fun hx' => hdisj x (List.mem_mergeSort.1 hx) hx'))
      have hle3 : le_elem h3 = le :=
        (le_elem_congr (same_values_trans (same_values_trans hV1 hV2) hV3)).trans hle
      obtain ⟨h4, p4, hrun4, hc4, hF4, hV4⟩ := @merge_ok _ _ _ _ _ fuel hc2' hc3
        (fun x hx hx' => hdisj x (List.mem_mergeSort.1 hx) (List.mem_mergeSort.1 hx'))
        (by rw [List.length_mergeSort, List.length_mergeSort, hlenA, hlenB]; omega)
      rw [hle3] at hc4
      refine ⟨h4, p4, ?_, ?_, ?_, ?_⟩
      · unfold merge_sort
        simp only [hea, hb, hsplit, hse, hrun2, hrun3]
        exact hrun4
      · rw [mergeSort_cons_cons]; exact hc4
      · intro x hx
        have hxA : x ∉ (a :: b :: T).take ((T.length + 3) / 2) :=
          fun hm => hx (List.mem_of_mem_take hm)
        have hxB : x ∉ (a :: b :: T).drop ((T.length + 3) / 2) :=
          fun hm => hx (List.mem_of_mem_drop hm)
        have hxs : x ≠ (a :: b :: T)[(b :: T).length / 2] := by
          rintro rfl; exact hx (List.getElem_mem _)
        rw [hF4 x (fun hm => hxA (List.mem_mergeSort.1 hm))
          (fun hm => hxB (List.mem_mergeSort.1 hm)), hF3 x hxB, hF2 x hxA,
          write_other _ _ _ _ hxs]
      · exact same_values_trans (same_values_trans (same_values_trans hV1 hV2) hV3) hV4

theorem last_loop_ok : ∀ (fuel : Nat) (M : List Nat) (h : Heap) (p : Option Nat),
    chain h p M → M ≠ [] → M.length ≤ fuel + 1 → last_loop fuel h p = M.getLast? := by
  intro fuel
  induction fuel with
  | zero =>
    intro M h p hc hne hlen
    match M, hc, hne, hlen with
    | [a], hc, _, _ =>
      obtain ⟨hp, e, he, hn⟩ := hc
      have hn' : e.next = none := hn
      subst hp
      unfold last_loop
      simp [he, hn']
    | _ :: _ :: _, _, _, hlen => simp at hlen
  | succ fuel ih =>
    intro M h p hc hne hlen
    match M, hc, hne, hlen with
    | [a], hc, _, _ =>
      obtain ⟨hp, e, he, hn⟩ := hc
      have hn' : e.next = none := hn
      subst hp
      unfold last_loop
      simp [he, hn']
    | a :: b :: M, hc, _, hlen =>
      obtain ⟨hp, e, he, hn⟩ := hc
      have hb : e.next = some b := hn.1
      subst hp
      have := ih (b :: M) h e.next hn (by simp) (by simpa using hlen)
      unfold last_loop
      simp only [he, hb]
      rw [hb] at this
      rw [this, List.getLast?_cons_cons]

/-- The heap and queue after `q_sort` on a well-formed queue. -/
theorem q_sort_ok {h : Heap} {q : queue_t} {A : List Nat} {depth fuel : Nat}
    (hw : shape h q A) (hdepth : A.length ≤ 2 ^ depth) (hfuel : A.length ≤ fuel) :
    ∃ h' q', q_sort depth fuel h (some q) = some (h', some q') ∧
      shape h' q' (A.mergeSort (le_elem h)) ∧ same_values h h' ∧
      (∀ x, x ∉ A → h' x = h x) ∧ q'.size = q.size := by
  obtain ⟨hc, ht, hs⟩ := hw
  cases A with
  | nil =>
    have hq : q.head = none := hc
    refine ⟨h, q, ?_, ⟨by simpa using hc, by simpa using ht, by simpa using hs⟩,
      same_values_refl h, fun _ _ => rfl, rfl⟩
    simp [q_sort, hq]
  | cons a A =>
    have hq : q.head = some a := hc.1
    obtain ⟨h', p', hrun, hc', hF, hV⟩ :=
      merge_sort_ok (le_elem h) depth (a :: A) h q.head fuel rfl hc hdepth hfuel
    rw [hq] at hrun
    have hne : (a :: A).mergeSort (le_elem h) ≠ [] := by
      intro h0
      have := congrArg List.length h0
      simp at this
    have hlast := last_loop_ok fuel _ h' p' hc' hne (by rw [List.length_mergeSort]; omega)
    obtain ⟨c, hcl⟩ : ∃ c, ((a :: A).mergeSort (le_elem h)).getLast? = some c := by
      cases hg : ((a :: A).mergeSort (le_elem h)).getLast? with
      | none => exact absurd (List.getLast?_eq_none_iff.1 hg) hne
      | some c => exact ⟨c, rfl⟩
    rw [hcl] at hlast
    refine ⟨h', { q with head := p', tail := some c }, ?_, ⟨hc', hcl.symm, ?_⟩, hV, hF, rfl⟩
    · simp [q_sort, hq, hrun, hlast]
    · simpa using hs

/-! ## The order of `strcmp` -/

theorem strcmp_self (a : List Nat) : strcmp a a = 0 := by
  induction a with
  | nil => rfl
  | cons x xs ih => simp [strcmp, ih]

theorem strcmp_total (a b : List Nat) : strcmp a b ≤ 0 ∨ strcmp b a ≤ 0 := by
  induction a generalizing b with
  | nil => cases b <;> simp [strcmp]
  | cons x xs ih =>
    cases b with
    | nil => simp [strcmp]
    | cons y ys =>
      simp only [strcmp]
      by_cases hxy : x = y
      · subst hxy; simpa using ih ys
      · have hyx : ¬ y = x := fun hh => hxy hh.symm
        simp only [hxy, hyx, if_false]
        by_cases hlt : x < y
        · simp [hlt]
        · have : y < x := by omega
          simp [this]

theorem strcmp_trans (a b c : List Nat) (hab : strcmp a b ≤ 0) (hbc : strcmp b c ≤ 0) :
    strcmp a c ≤ 0 := by
  induction a generalizing b c with
  | nil => cases c <;> simp [strcmp]
  | cons x xs ih =>
    cases b with
    | nil => simp [strcmp] at hab
    | cons y ys =>
      cases c with
      | nil => simp [strcmp] at hbc
      | cons z zs =>
        simp only [strcmp] at hab hbc ⊢
        by_cases hxy : x = y
        · subst hxy
          simp only [if_true] at hab
          by_cases hxz : x = z
          · subst hxz
            simp only [if_true] at hbc ⊢
            exact ih ys zs hab hbc
          · simp only [hxz, if_false] at hbc ⊢
            exact hbc
        · simp only [hxy, if_false] at hab
          have hlt : x < y := by
            by_contra hn
            simp [hn] at hab
          by_cases hyz : y = z
          · subst hyz
            simp [hxy, hlt]
          · simp only [hyz, if_false] at hbc
            have hlt2 : y < z := by
              by_contra hn
              simp [hn] at hbc
            have hxz : x ≠ z := by omega
            have hlt3 : x < z := by omega
            simp [hxz, hlt3]

theorem le_value_total (a b : Option (List Nat)) : (le_value a b || le_value b a) = true := by
  cases a with
  | none => simp [le_value]
  | some s =>
    cases b with
    | none => simp [le_value]
    | some t =>
      simp only [le_value, Bool.or_eq_true, decide_eq_true_eq]
      exact strcmp_total s t

theorem le_value_trans (a b c : Option (List Nat)) (hab : le_value a b = true)
    (hbc : le_value b c = true) : le_value a c = true := by
  cases a with
  | none => simp [le_value]
  | some s =>
    cases b with
    | none => simp [le_value] at hab
    | some t =>
      cases c with
      | none => simp [le_value] at hbc
      | some u =>
        simp only [le_value, decide_eq_true_eq] at hab hbc ⊢
        exact strcmp_trans s t u hab hbc

theorem sorted_mergeSort_elems (h : Heap) (A : List Nat) :
    List.Pairwise (fun a b => le_elem h a b = true) (A.mergeSort (le_elem h)) :=
  @List.sorted_mergeSort Nat (le_elem h)
    (fun a b c => le_value_trans (value_at h a) (value_at h b) (value_at h c))
    (fun a b => le_value_total (value_at h a) (value_at h b)) A

/-! ## Results do not depend on the iteration budget -/


theorem reverse_loop_mono : ∀ (fuel : Nat) (h : Heap) (prev head : Option Nat)
    (r : Heap × Option Nat), reverse_loop fuel h prev head = some r →
    reverse_loop (fuel + 1) h prev head = some r := by
  intro fuel
  induction fuel with
  | zero =>
    intro h prev head r hr
    cases head with
    | none => unfold reverse_loop at hr ⊢; exact hr
    | some a => unfold reverse_loop at hr; simp at hr
  | succ fuel ih =>
    intro h prev head r hr
    cases head with
    | none => unfold reverse_loop at hr ⊢; exact hr
    | some a =>
      unfold reverse_loop at hr ⊢
      simp only at hr ⊢
      cases he : h a with
      | none => rw [he] at hr; simp at hr
      | some e =>
        rw [he] at hr
        simp only at hr ⊢
        exact ih _ _ _ _ hr

theorem merge_loop_mono : ∀ (fuel : Nat) (h : Heap) (head indirect left right : Option Nat)
    (r : Heap × Option Nat), merge_loop fuel h head indirect left right = some r →
    merge_loop (fuel + 1) h head indirect left right = some r := by
  intro fuel
  induction fuel with
  | zero =>
    intro h head indirect left right r hr
    cases left with
    | none => rw [merge_loop_exit _ _ _ _ _ _ (Or.inl rfl)] at hr ⊢; exact hr
    | some l =>
      cases right with
      | none => rw [merge_loop_exit _ _ _ _ _ _ (Or.inr rfl)] at hr ⊢; exact hr
      | some r' => unfold merge_loop at hr; simp at hr
  | succ fuel ih =>
    intro h head indirect left right r hr
    cases left with
    | none => rw [merge_loop_exit _ _ _ _ _ _ (Or.inl rfl)] at hr ⊢; exact hr
    | some l =>
      cases right with
      | none => rw [merge_loop_exit _ _ _ _ _ _ (Or.inr rfl)] at hr ⊢; exact hr
      | some r' =>
        unfold merge_loop at hr ⊢
        simp only at hr ⊢
        split at hr
        · simp at hr
        · split at hr
          · simp at hr
          · split at hr
            · simp at hr
            · split at hr
              · exact ih _ _ _ _ _ _ hr
              · simp at hr
        · split at hr
          · simp at hr
          · split at hr
            · simp at hr
            · split at hr
              · exact ih _ _ _ _ _ _ hr
              · simp at hr

theorem split_loop_mono : ∀ (fuel : Nat) (h : Heap) (fast slow : Option Nat)
    (r : Option Nat), split_loop fuel h fast slow = some r →
    split_loop (fuel + 1) h fast slow = some r := by
  intro fuel
  induction fuel with
  | zero =>
    intro h fast slow r hr
    unfold split_loop at hr ⊢
    split at hr
    · exact hr
    · split at hr
      · simp at hr
      · split at hr
        · exact hr
        · simp at hr
  | succ fuel ih =>
    intro h fast slow r hr
    unfold split_loop at hr ⊢
    split at hr
    · exact hr
    · split at hr
      · simp at hr
      · split at hr
        · exact hr
        · simp only at hr ⊢
          split at hr
          · split at hr
            · simp at hr
            · exact ih _ _ _ _ hr
          · simp at hr

theorem last_loop_mono : ∀ (fuel : Nat) (h : Heap) (cur : Option Nat) (r : Nat),
    last_loop fuel h cur = some r → last_loop (fuel + 1) h cur = some r := by
  intro fuel
  induction fuel with
  | zero =>
    intro h cur r hr
    unfold last_loop at hr ⊢
    split at hr
    · simp at hr
    · split at hr
      · simp at hr
      · split at hr
        · exact hr
        · simp at hr
  | succ fuel ih =>
    intro h cur r hr
    unfold last_loop at hr ⊢
    split at hr
    · simp at hr
    · split at hr
      · simp at hr
      · split at hr
        · exact hr
        · exact ih _ _ _ hr

theorem merge_sort_mono_fuel : ∀ (depth fuel : Nat) (h : Heap) (head : Option Nat)
    (r : Heap × Option Nat), merge_sort depth fuel h head = some r →
    merge_sort depth (fuel + 1) h head = some r := by
  intro depth
  induction depth with
  | zero =>
    intro fuel h head r hr
    unfold merge_sort at hr ⊢
    split at hr
    · exact hr
    · split at hr
      · simp at hr
      · split at hr
        · exact hr
        · simp at hr
  | succ depth ih =>
    intro fuel h head r hr
    unfold merge_sort at hr ⊢
    split at hr
    · exact hr
    · split at hr
      · simp at hr
      · split at hr
        · exact hr
        · simp only at hr ⊢
          split at hr
          · rename_i hs
            rw [split_loop_mono _ _ _ _ _ hs]
            simp only
            split at hr
            · simp at hr
            · split at hr
              · simp at hr
              · rename_i h2 left hl
                rw [ih _ _ _ _ hl]
                simp only
                split at hr
                · simp at hr
                · rename_i h3 right hrr
                  rw [ih _ _ _ _ hrr]
                  simp only
                  exact merge_loop_mono _ _ _ _ _ _ _ hr
          · simp at hr

theorem merge_sort_mono_depth : ∀ (depth fuel : Nat) (h : Heap) (head : Option Nat)
    (r : Heap × Option Nat), merge_sort depth fuel h head = some r →
    merge_sort (depth + 1) fuel h head = some r := by
  intro depth
  induction depth with
  | zero =>
    intro fuel h head r hr
    unfold merge_sort at hr ⊢
    split at hr
    · exact hr
    · split at hr
      · simp at hr
      · split at hr
        · exact hr
        · simp at hr
  | succ depth ih =>
    intro fuel h head r hr
    unfold merge_sort at hr
    split at hr
    · unfold merge_sort; exact hr
    · split at hr
      · simp at hr
      · split at hr
        · unfold merge_sort; simp only [*]
        · simp only at hr
          split at hr
          · rename_i hs
            split at hr
            · simp at hr
            · split at hr
              · simp at hr
              · rename_i h2 left hl
                split at hr
                · simp at hr
                · rename_i h3 right hrr
                  have e1 := ih _ _ _ _ hl
                  have e2 := ih _ _ _ _ hrr
                  rw [merge_sort]
                  simp only [*]
          · simp at hr

theorem budget_le {β : Type} (f : Nat → Option β)
    (hstep : ∀ n r, f n = some r → f (n + 1) = some r) :
    ∀ (n m : Nat) (r : β), n ≤ m → f n = some r → f m = some r := by
  intro n m r hnm hr
  induction m, hnm using Nat.le_induction with
  | base => exact hr
  | succ m _ ih => exact hstep m r ih

theorem q_reverse_le {fuel fuel' : Nat} {h : Heap} {q : Option queue_t}
    {r : Heap × Option queue_t} (hle : fuel ≤ fuel') (hr : q_reverse fuel h q = some r) :
    q_reverse fuel' h q = some r := by
  unfold q_reverse at hr ⊢
  split at hr
  · exact hr
  · split at hr
    · exact hr
    · split at hr
      · simp at hr
      · rename_i a _ _ h1 p hrun
        have := budget_le (fun n => reverse n h (some a))
          (fun n r => reverse_loop_mono n h none (some a) r) fuel fuel' _ hle hrun
        simp only at this
        rw [this]
        exact hr

theorem merge_sort_le {depth depth' fuel fuel' : Nat} {h : Heap} {p : Option Nat}
    {r : Heap × Option Nat} (hd : depth ≤ depth') (hf : fuel ≤ fuel')
    (hr : merge_sort depth fuel h p = some r) : merge_sort depth' fuel' h p = some r := by
  have h1 := budget_le (fun n => merge_sort depth n h p)
    (fun n r => merge_sort_mono_fuel depth n h p r) fuel fuel' r hf hr
  exact budget_le (fun n => merge_sort n fuel' h p)
    (fun n r => merge_sort_mono_depth n fuel' h p r) depth depth' r hd h1

theorem q_sort_le {depth depth' fuel fuel' : Nat} {h : Heap} {q : Option queue_t}
    {r : Heap × Option queue_t} (hd : depth ≤ depth') (hf : fuel ≤ fuel')
    (hr : q_sort depth fuel h q = some r) : q_sort depth' fuel' h q = some r := by
  unfold q_sort at hr ⊢
  split at hr
  · exact hr
  · split at hr
    · exact hr
    · split at hr
      · simp at hr
      · rename_i h1 p hrun
        rw [merge_sort_le hd hf hrun]
        simp only
        split at hr
        · simp at hr
        · rename_i c hc
          rw [budget_le (fun n => last_loop n h1 p) (fun n r => last_loop_mono n h1 p r)
            fuel fuel' c hf hc]
          exact hr

/-- Whatever budget `q_reverse` returned with, its result is the one of
`q_reverse_ok`. -/
theorem q_reverse_any {h h' : Heap} {q : queue_t} {q'' : Option queue_t} {A : List Nat}
    {fuel : Nat} (hw : shape h q A) (hr : q_reverse fuel h (some q) = some (h', q'')) :
    ∃ q', q'' = some q' ∧ shape h' q' A.reverse ∧ same_values h h' ∧ q'.size = q.size := by
  obtain ⟨h1, q1, hrun, hw1, hV, _, _, _, hs⟩ :=
    @q_reverse_ok h q A (max fuel A.length) hw (le_max_right _ _)
  have := q_reverse_le (le_max_left fuel A.length) hr
  rw [hrun] at this
  cases this
  exact ⟨q1, rfl, hw1, hV, hs⟩

/-- Whatever budget `q_sort` returned with, its result is the one of
`q_sort_ok`. -/
theorem q_sort_any {h h' : Heap} {q : queue_t} {q'' : Option queue_t} {A : List Nat}
    {depth fuel : Nat} (hw : shape h q A) (hr : q_sort depth fuel h (some q) = some (h', q'')) :
    ∃ q', q'' = some q' ∧ shape h' q' (A.mergeSort (le_elem h)) ∧ same_values h h' ∧
      q'.size = q.size := by
  have hpow : A.length ≤ 2 ^ (max depth A.length) :=
    le_trans (le_max_right depth A.length) (Nat.lt_two_pow _).le
  obtain ⟨h1, q1, hrun, hw1, hV, _, hs⟩ :=
    @q_sort_ok h q A (max depth A.length) (max fuel A.length) hw hpow
      (le_max_right _ _)
  have := q_sort_le (le_max_left depth A.length) (le_max_left fuel A.length) hr
  rw [hrun] at this
  cases this
  exact ⟨q1, rfl, hw1, hV, hs⟩

/-! ## Well-formedness is preserved by every call -/

theorem shape_step {h h' : Heap} {q q' : queue_t} {A : List Nat} {c : Call}
    (hw : shape h q A) (hal : c.allowed h) (hrun : run_call h q c = some (h', some q')) :
    ∃ A', shape h' q' A' := by
  cases c with
  | insert_head s node str =>
    have hm : malloc_ok h node := hal
    cases node with
    | none =>
      simp only [run_call, q_insert_head, create_ele, Option.map_some', Option.some.injEq,
        Prod.mk.injEq] at hrun
      obtain ⟨rfl, rfl⟩ := hrun
      exact ⟨A, hw⟩
    | some a =>
      have hf : h a = none := hm a rfl
      cases str with
      | false =>
        simp only [run_call, q_insert_head, create_ele, write_write, write_fresh h a hf,
          Option.map_some', Option.some.injEq, Prod.mk.injEq, Bool.false_eq_true,
          if_false] at hrun
        obtain ⟨rfl, rfl⟩ := hrun
        exact ⟨A, hw⟩
      | true =>
        simp only [run_call, q_insert_head_eq, Option.map_some', Option.some.injEq,
          Prod.mk.injEq] at hrun
        obtain ⟨rfl, rfl⟩ := hrun
        exact ⟨a :: A, shape_insert_head s hw hf⟩
  | insert_tail s node str =>
    have hm : malloc_ok h node := hal
    cases node with
    | none =>
      simp only [run_call, q_insert_tail, create_ele, Option.map_some', Option.some.injEq,
        Prod.mk.injEq] at hrun
      obtain ⟨rfl, rfl⟩ := hrun
      exact ⟨A, hw⟩
    | some a =>
      have hf : h a = none := hm a rfl
      cases str with
      | false =>
        simp only [run_call, q_insert_tail, create_ele, write_write, write_fresh h a hf,
          Option.map_some', Option.some.injEq, Prod.mk.injEq, Bool.false_eq_true,
          if_false] at hrun
        obtain ⟨rfl, rfl⟩ := hrun
        exact ⟨A, hw⟩
      | true =>
        obtain ⟨h1, q1, hrun1, hw1, _⟩ := q_insert_tail_ok s hw hf
        simp only [run_call, hrun1, Option.map_some', Option.some.injEq,
          Prod.mk.injEq] at hrun
        obtain ⟨rfl, rfl⟩ := hrun
        exact ⟨A ++ [a], hw1⟩
  | remove_head sp n =>
    cases A with
    | nil =>
      have hq : q.head = none := hw.1
      simp only [run_call, q_remove_head, hq, Option.map_some', Option.some.injEq,
        Prod.mk.injEq] at hrun
      obtain ⟨rfl, rfl⟩ := hrun
      exact ⟨[], hw⟩
    | cons x A =>
      have hq : q.head = some x := hw.1.1
      obtain ⟨e, he, _⟩ := hw.1.2
      simp only [run_call, q_remove_head_eq hq he, Option.map_some', Option.some.injEq,
        Prod.mk.injEq] at hrun
      obtain ⟨rfl, rfl⟩ := hrun
      exact ⟨A, (shape_remove_head hw he).1⟩
  | reverse fuel =>
    obtain ⟨q1, hq1, hw1, _⟩ := q_reverse_any hw hrun
    cases hq1
    exact ⟨_, hw1⟩
  | sort depth fuel =>
    obtain ⟨q1, hq1, hw1, _⟩ := q_sort_any hw hrun
    cases hq1
    exact ⟨_, hw1⟩

theorem reachable_shape {h : Heap} {q : queue_t} (hr : Reachable h q) : ∃ A, shape h q A := by
  induction hr with
  | new h q hq =>
    simp only [q_new, if_true, Option.some.injEq] at hq
    subst hq
    exact ⟨[], rfl, rfl, rfl⟩
  | step h q c h' q' _ hal hrun ih =>
    obtain ⟨A, hw⟩ := ih
    exact shape_step hw hal hrun

/-- The invariants of the data model, read off a state whose links are right
and whose counter is the element count stored in an `int`. -/
theorem shape_props {h : Heap} {q : queue_t} {L : List Nat} (hw : shape h q L) :
    (q.head = none ↔ q.tail = none) ∧
    (q.head = none ∧ q.tail = none → q.size = 0) ∧
    (∀ t, q.tail = some t → ∃ e, h t = some e ∧ e.next = none) ∧
    (L.length < 4294967296 →
      (q.size = 0 ↔ q.head = none ∧ q.tail = none) ∧ (q.size = 1 → q.head = q.tail)) ∧
    (L.length < 2147483648 → q.size = (L.length : Int)) := by
  obtain ⟨hc, ht, hs⟩ := hw
  refine ⟨?_, ?_, ?_, ?_, ?_⟩
  · cases L with
    | nil =>
      have hq : q.head = none := hc
      simp [ht, hq]
    | cons a L =>
      have hq : q.head = some a := hc.1
      have htl : q.tail ≠ none := by rw [ht]; simp [List.getLast?_cons]
      simp [hq, htl]
  · rintro ⟨hq, _⟩
    cases L with
    | nil => rw [hs]; unfold to_int; simp
    | cons a L =>
      have hq' : q.head = some a := hc.1
      rw [hq] at hq'; cases hq'
  · intro t htl
    rw [ht] at htl
    obtain ⟨B, rfl⟩ := List.getLast?_eq_some_iff.1 htl
    obtain ⟨r, _, _, e, he, hn⟩ := lseg_append.1 hc
    exact ⟨e, he, hn⟩
  · intro hlt
    match L, hc, ht, hs, hlt with
    | [], hc, ht, hs, _ =>
      have hq : q.head = none := hc
      have ht' : q.tail = none := ht
      have hs' : q.size = 0 := by rw [hs]; unfold to_int; simp
      simp [hq, ht', hs']
    | [a], hc, ht, hs, _ =>
      have hq : q.head = some a := hc.1
      have ht' : q.tail = some a := ht
      have hs' : q.size = 1 := by rw [hs]; unfold to_int; simp
      simp [hq, ht', hs']
    | a :: b :: T, hc, ht, hs, hlt =>
      have hq : q.head = some a := hc.1
      have hne0 : q.size ≠ 0 := by
        rw [hs]; unfold to_int
        simp only [List.length_cons] at hlt ⊢
        push_cast
        omega
      have hne1 : q.size ≠ 1 := by
        rw [hs]; unfold to_int
        simp only [List.length_cons] at hlt ⊢
        push_cast
        omega
      simp [hq, hne0, hne1]
  · intro hlt
    rw [hs]
    exact to_int_small _ (Int.natCast_nonneg _) (by omega)

theorem demo_wf : wf demo_heap demo_queue [1, 2] :=
  ⟨⟨rfl, { value := some [98], next := some 2 }, rfl, rfl,
    { value := some [97], next := none }, rfl, rfl⟩, rfl, rfl, by decide⟩

theorem demo_shape : shape demo_heap demo_queue [1, 2] := wf_shape demo_wf

theorem demo_malloc_ok : malloc_ok demo_heap (some 3) := by
  intro a ha
  cases ha
  rfl

theorem reachable_after {st : Heap × queue_t} {c : Call} (hr : Reachable st.1 st.2)
    (hal : c.allowed st.1) : Reachable (after st c).1 (after st c).2 := by
  unfold after
  split
  · rename_i h' q' hrun
    exact Reachable.step st.1 st.2 c h' q' hr hal hrun
  · exact hr

theorem demo_reachable : Reachable demo_state.1 demo_state.2 := by
  unfold demo_state
  refine reachable_after (reachable_after (reachable_after (reachable_after
    (reachable_after (Reachable.new _ _ rfl) ?_) ?_) trivial) trivial) trivial
  · intro a ha; cases ha; rfl
  · intro a ha; cases ha; rfl

/-- The order of `strcmp` is the lexicographic order of the byte lists. -/
theorem strcmp_le_iff_lex (s t : List Nat) :
    strcmp s t ≤ 0 ↔ s = t ∨ List.Lex (fun a b => a < b) s t := by
  induction s generalizing t with
  | nil =>
    cases t with
    | nil => simp [strcmp]
    | cons b bs => simp [strcmp, List.Lex.nil]
  | cons a as ih =>
    cases t with
    | nil =>
      simp only [strcmp]
      constructor
      · intro h; simp at h
      · rintro (h | h)
        · cases h
        · cases h
    | cons b bs =>
      simp only [strcmp]
      by_cases hab : a = b
      · subst hab
        simp only [if_true, ih bs, List.cons.injEq, true_and]
        constructor
        · rintro (h | h)
          · exact Or.inl h
          · exact Or.inr (List.Lex.cons h)
        · rintro (h | h)
          · exact Or.inl h
          · cases h with
            | cons h' => exact Or.inr h'
            | rel h' => exact absurd h' (lt_irrefl _)
      · simp only [hab, if_false, List.cons.injEq, false_and, false_or]
        by_cases hlt : a < b
        · simp only [hlt, if_true]
          constructor
          · intro _; exact List.Lex.rel hlt
          · intro _; decide
        · simp only [hlt, if_false]
          constructor
          · intro h; simp at h
          · intro h
            cases h with
            | cons h' => exact absurd rfl hab
            | rel h' => exact absurd h' hlt

/-! ## Sequences of insertions and removals -/

theorem read_bytes_succ (b : Buffer) (n : Nat) :
    read_bytes b (n + 1) = read_bytes b n ++ [b n] := by
  simp [read_bytes, List.range_succ]

theorem read_bytes_snprintf (b : Buffer) (n : Nat) (s : List Nat) (hn : s.length < n) :
    ∀ k, k ≤ s.length → read_bytes (snprintf b n s) k = s.take k := by
  have hstr : snprintf_str n s = s := by
    unfold snprintf_str
    exact List.take_of_length_le (by omega)
  have hn0 : n ≠ 0 := by omega
  intro k
  induction k with
  | zero => intro _; simp [read_bytes]
  | succ k ih =>
    intro hk
    have hk' : k < s.length := hk
    rw [read_bytes_succ, ih (by omega)]
    have : snprintf b n s k = s[k] := by
      simp only [snprintf, hn0, if_false, hstr, hk', if_true]
      rw [List.getD_eq_getElem _ _ hk']
    rw [this]
    exact List.take_concat_get' s k hk'

theorem holds_snprintf (b : Buffer) (n : Nat) (s : List Nat) (hn : s.length < n) :
    holds (some (snprintf b n s)) s := by
  have hstr : snprintf_str n s = s := by
    unfold snprintf_str
    exact List.take_of_length_le (by omega)
  have hn0 : n ≠ 0 := by omega
  show read_bytes (snprintf b n s) (s.length + 1) = s ++ [0]
  rw [read_bytes_succ, read_bytes_snprintf b n s hn s.length (le_refl _), List.take_length]
  congr 2
  simp [snprintf, hn0, hstr]

theorem insert_tail_all_ok : ∀ (items : List (Nat × List Nat)) (h : Heap) (q : queue_t)
    (A : List Nat), shape h q A → (items.map Prod.fst).Nodup →
    (∀ a ∈ items.map Prod.fst, h a = none) →
    ∃ h1 q1, insert_tail_all h (some q) items = some (h1, some q1) ∧
      shape h1 q1 (A ++ items.map Prod.fst) ∧
      vals h1 (A ++ items.map Prod.fst) = vals h A ++ items.map (fun it => some it.2) := by
  intro items
  induction items with
  | nil =>
    intro h q A hw _ _
    exact ⟨h, q, rfl, by simpa using hw, by simp⟩
  | cons it rest ih =>
    intro h q A hw hnd hfresh
    obtain ⟨a, s⟩ := it
    simp only [List.map_cons, List.nodup_cons] at hnd
    have hf : h a = none := hfresh a (by simp)
    obtain ⟨h', q', hrun, hw', hv, _, hkeep⟩ := q_insert_tail_ok s hw hf
    have hfresh' : ∀ x ∈ rest.map Prod.fst, h' x = none := by
      intro x hx
      refine hkeep x (hfresh x (by simp only [List.map_cons]; exact List.mem_cons_of_mem _ hx)) ?_
      rintro rfl
      exact hnd.1 hx
    obtain ⟨h1, q1, hrun1, hw1, hv1⟩ := ih h' q' (A ++ [a]) hw' hnd.2 hfresh'
    refine ⟨h1, q1, ?_, ?_, ?_⟩
    · simp only [insert_tail_all, hrun]
      exact hrun1
    · simpa using hw1
    · simpa [hv] using hv1

theorem remove_head_all_ok : ∀ (strs : List (List Nat)) (A : List Nat) (h : Heap) (q : queue_t)
    (bufs : List (Buffer × Nat)), shape h q A → vals h A = strs.map some →
    List.Forall₂ (fun (s : List Nat) (bn : Buffer × Nat) => s.length < bn.2) strs bufs →
    ∃ outs h2, remove_head_all h (some q) bufs
        = some (outs, h2, some { head := none, tail := none, size := 0 }) ∧
      List.Forall₂ (fun (s : List Nat) (o : Bool × Option Buffer) => o.1 = true ∧ holds o.2 s)
        strs outs := by
  intro strs
  induction strs with
  | nil =>
    intro A h q bufs hw hv hbig
    cases hbig
    have hA : A = [] := by
      have := congrArg List.length hv
      simpa [vals] using this
    subst hA
    obtain ⟨hc, ht, hs⟩ := hw
    have hq : q = { head := none, tail := none, size := 0 } := by
      obtain ⟨qh, qt, qs⟩ := q
      have h1 : qh = none := hc
      have h2 : qt = none := ht
      have h3 : qs = 0 := by simpa using hs
      subst h1 h2 h3
      rfl
    subst hq
    exact ⟨[], h, rfl, List.Forall₂.nil⟩
  | cons s strs ih =>
    intro A h q bufs hw hv hbig
    cases hbig with
    | cons hsb hrest =>
      rename_i bn bufs
      obtain ⟨b, n⟩ := bn
      cases A with
      | nil => simp [vals] at hv
      | cons x A =>
        have hq : q.head = some x := hw.1.1
        obtain ⟨e, he, _⟩ := hw.1.2
        simp only [vals, List.map_cons, List.cons.injEq] at hv
        have hval : e.value = some s := by
          have := hv.1
          simpa [value_at, he] using this
        obtain ⟨hw', hv'⟩ := shape_remove_head hw he
        obtain ⟨outs, h2, hrun, hall⟩ := ih A _ _ bufs hw' (hv'.trans hv.2) hrest
        refine ⟨(true, some (snprintf b n s)) :: outs, h2, ?_, ?_⟩
        · simp only [remove_head_all, q_remove_head_eq hq he, hval, hrun]
        · exact List.Forall₂.cons ⟨rfl, holds_snprintf b n s hsb⟩ hall

/-! ## Bounded copy into the caller buffer -/

theorem read_bytes_snprintf_trunc (b : Buffer) (n : Nat) (s : List Nat) (hn : 0 < n) :
    ∀ k, k ≤ (snprintf_str n s).length →
      read_bytes (snprintf b n s) k = (snprintf_str n s).take k := by
  have hn0 : n ≠ 0 := by omega
  intro k
  induction k with
  | zero => intro _; simp [read_bytes]
  | succ k ih =>
    intro hk
    have hk' : k < (snprintf_str n s).length := hk
    rw [read_bytes_succ, ih (by omega)]
    have : snprintf b n s k = (snprintf_str n s)[k] := by
      simp only [snprintf, hn0, if_false, hk', if_true]
      rw [List.getD_eq_getElem _ _ hk']
    rw [this]
    exact List.take_concat_get' _ k hk'

theorem snprintf_terminator (b : Buffer) (n : Nat) (s : List Nat) (hn : 0 < n) :
    snprintf b n s (snprintf_str n s).length = 0 := by
  have hn0 : n ≠ 0 := by omega
  simp [snprintf, hn0]

theorem snprintf_untouched (b : Buffer) (n : Nat) (s : List Nat) (i : Nat)
    (hi : (snprintf_str n s).length < i) : snprintf b n s i = b i := by
  unfold snprintf
  split
  · rfl
  · have h1 : ¬ i < (snprintf_str n s).length := by omega
    have h2 : ¬ i = (snprintf_str n s).length := by omega
    simp only [h1, h2, if_false]

theorem snprintf_str_length (n : Nat) (s : List Nat) :
    (snprintf_str n s).length = min s.length (n - 1) := by
  unfold snprintf_str
  rw [List.length_take]
  exact Nat.min_comm _ _

theorem snprintf_str_eq_take (n : Nat) (s : List Nat) :
    snprintf_str n s = s.take (min s.length (n - 1)) := by
  unfold snprintf_str
  rw [List.take_eq_take]
  omega

/-! ## Restoring a state -/

theorem chain_cells_eq {h h' : Heap} {A : List Nat} {p : Option Nat}
    (hc : chain h p A) (hc' : chain h' p A) (hV : same_values h h') :
    ∀ x ∈ A, h' x = h x := by
  induction A generalizing p with
  | nil => intro x hx; cases hx
  | cons a A ih =>
    obtain ⟨_, e, he, hr⟩ := hc
    obtain ⟨_, e', he', hr'⟩ := hc'
    have hn : e'.next = e.next := (chain_head hr').trans (chain_head hr).symm
    have hv : e'.value = e.value := by
      have := hV a
      simpa [he, he'] using this
    have hee : e' = e := by
      obtain ⟨v, n⟩ := e
      obtain ⟨v', n'⟩ := e'
      simp only at hn hv
      subst hn hv
      rfl
    intro x hx
    rcases List.mem_cons.1 hx with rfl | hxA
    · rw [he, he', hee]
    · rw [hn] at hr'
      exact ih hr hr' x hxA

theorem heap_eq_of_chain {h h' : Heap} {A : List Nat} {p : Option Nat}
    (hc : chain h p A) (hc' : chain h' p A) (hV : same_values h h')
    (hF : ∀ x, x ∉ A → h' x = h x) : h' = h := by
  funext x
  by_cases hx : x ∈ A
  · exact chain_cells_eq hc hc' hV x hx
  · exact hF x hx

theorem queue_eq_of_shape {h h' : Heap} {q q' : queue_t} {A : List Nat}
    (hw : shape h q A) (hw' : shape h' q' A) : q' = q := by
  obtain ⟨hc, ht, hs⟩ := hw
  obtain ⟨hc', ht', hs'⟩ := hw'
  obtain ⟨qh, qt, qs⟩ := q
  obtain ⟨qh', qt', qs'⟩ := q'
  have h1 : qh' = qh := (chain_head hc').trans (chain_head hc).symm
  have h2 : qt' = qt := ht'.trans ht.symm
  have h3 : qs' = qs := hs'.trans hs.symm
  simp only at h1 h2 h3
  subst h1 h2 h3
  rfl

/-! ## Counting the elements -/

theorem shape_step_count {h h' : Heap} {q q' : queue_t} {A : List Nat} {c : Call} {ret : Bool}
    (hw : shape h q A) (hal : c.allowed h)
    (hrun : run_call_ret h q c = some (ret, h', some q')) :
    ∃ A', shape h' q' A' ∧
      (A'.length : Int) = A.length + (if c.is_insert && ret then 1 else 0)
        - (if c.is_remove && ret then 1 else 0) := by
  cases c with
  | insert_head s node str =>
    have hm : malloc_ok h node := hal
    cases node with
    | none =>
      simp only [run_call_ret, q_insert_head, create_ele, Option.some.injEq,
        Prod.mk.injEq] at hrun
      obtain ⟨rfl, rfl, rfl⟩ := hrun
      exact ⟨A, hw, by simp [Call.is_insert, Call.is_remove]⟩
    | some a =>
      have hf : h a = none := hm a rfl
      cases str with
      | false =>
        simp only [run_call_ret, q_insert_head, create_ele, write_write, write_fresh h a hf,
          Option.some.injEq, Prod.mk.injEq, Bool.false_eq_true, if_false] at hrun
        obtain ⟨rfl, rfl, rfl⟩ := hrun
        exact ⟨A, hw, by simp [Call.is_insert, Call.is_remove]⟩
      | true =>
        simp only [run_call_ret, q_insert_head_eq, Option.some.injEq, Prod.mk.injEq] at hrun
        obtain ⟨rfl, rfl, rfl⟩ := hrun
        exact ⟨a :: A, shape_insert_head s hw hf, by simp [Call.is_insert, Call.is_remove]⟩
  | insert_tail s node str =>
    have hm : malloc_ok h node := hal
    cases node with
    | none =>
      simp only [run_call_ret, q_insert_tail, create_ele, Option.some.injEq,
        Prod.mk.injEq] at hrun
      obtain ⟨rfl, rfl, rfl⟩ := hrun
      exact ⟨A, hw, by simp [Call.is_insert, Call.is_remove]⟩
    | some a =>
      have hf : h a = none := hm a rfl
      cases str with
      | false =>
        simp only [run_call_ret, q_insert_tail, create_ele, write_write, write_fresh h a hf,
          Option.some.injEq, Prod.mk.injEq, Bool.false_eq_true, if_false] at hrun
        obtain ⟨rfl, rfl, rfl⟩ := hrun
        exact ⟨A, hw, by simp [Call.is_insert, Call.is_remove]⟩
      | true =>
        obtain ⟨h1, q1, hrun1, hw1, _⟩ := q_insert_tail_ok s hw hf
        simp only [run_call_ret, hrun1, Option.some.injEq, Prod.mk.injEq] at hrun
        obtain ⟨rfl, rfl, rfl⟩ := hrun
        exact ⟨A ++ [a], hw1, by simp [Call.is_insert, Call.is_remove]⟩
  | remove_head sp n =>
    cases A with
    | nil =>
      have hq : q.head = none := hw.1
      simp only [run_call_ret, q_remove_head, hq, Option.map_some', Option.some.injEq,
        Prod.mk.injEq] at hrun
      obtain ⟨rfl, rfl, rfl⟩ := hrun
      exact ⟨[], hw, by simp [Call.is_insert, Call.is_remove]⟩
    | cons x A =>
      have hq : q.head = some x := hw.1.1
      obtain ⟨e, he, _⟩ := hw.1.2
      simp only [run_call_ret, q_remove_head_eq hq he, Option.map_some', Option.some.injEq,
        Prod.mk.injEq] at hrun
      obtain ⟨rfl, rfl, rfl⟩ := hrun
      exact ⟨A, (shape_remove_head hw he).1, by simp [Call.is_insert, Call.is_remove]⟩
  | reverse fuel =>
    cases hr : q_reverse fuel h (some q) with
    | none => simp [run_call_ret, hr] at hrun
    | some r =>
      obtain ⟨h1, q1⟩ := r
      simp only [run_call_ret, hr, Option.map_some', Option.some.injEq, Prod.mk.injEq] at hrun
      obtain ⟨rfl, rfl, rfl⟩ := hrun
      obtain ⟨q2, hq2, hw2, _⟩ := q_reverse_any hw hr
      cases hq2
      exact ⟨_, hw2, by simp [Call.is_insert, Call.is_remove]⟩
  | sort depth fuel =>
    cases hr : q_sort depth fuel h (some q) with
    | none => simp [run_call_ret, hr] at hrun
    | some r =>
      obtain ⟨h1, q1⟩ := r
      simp only [run_call_ret, hr, Option.map_some', Option.some.injEq, Prod.mk.injEq] at hrun
      obtain ⟨rfl, rfl, rfl⟩ := hrun
      obtain ⟨q2, hq2, hw2, _⟩ := q_sort_any hw hr
      cases hq2
      exact ⟨_, hw2, by simp [Call.is_insert, Call.is_remove]⟩

theorem counted_shape {h : Heap} {q : queue_t} {i r : Nat} (hc : Counted h q i r) :
    ∃ A, shape h q A ∧ (A.length : Int) = (i : Int) - (r : Int) := by
  induction hc with
  | new h q hq =>
    simp only [q_new, if_true, Option.some.injEq] at hq
    subst hq
    exact ⟨[], ⟨rfl, rfl, rfl⟩, by simp⟩
  | step h q c ret h' q' i r _ hal hrun ih =>
    obtain ⟨A, hw, hlen⟩ := ih
    obtain ⟨A', hw', hlen'⟩ := shape_step_count hw hal hrun
    refine ⟨A', hw', ?_⟩
    rw [hlen', hlen]
    push_cast
    split <;> split <;> simp <;> ring

theorem counted_after {st : Heap × queue_t × Nat × Nat} {c : Call}
    (hc : Counted st.1 st.2.1 st.2.2.1 st.2.2.2) (hal : c.allowed st.1) :
    Counted (after_ret st c).1 (after_ret st c).2.1 (after_ret st c).2.2.1
      (after_ret st c).2.2.2 := by
  unfold after_ret
  split
  · rename_i ret h' q' hrun
    exact Counted.step st.1 st.2.1 c ret h' q' st.2.2.1 st.2.2.2 hc hal hrun
  · exact hc

theorem counted_state_ok :
    Counted counted_state.1 counted_state.2.1 counted_state.2.2.1 counted_state.2.2.2 := by
  unfold counted_state
  refine counted_after (counted_after (counted_after (counted_after
    (counted_after (Counted.new _ _ rfl) ?_) ?_) ?_) trivial) trivial
  · intro a ha; cases ha; rfl
  · intro a ha; cases ha; rfl
  · intro a ha; cases ha

/-! ## Stability and absent values -/

theorem pair_sublist_or {a b : Nat} {l : List Nat} (hab : a ≠ b) (ha : a ∈ l) (hb : b ∈ l) :
    [a, b].Sublist l ∨ [b, a].Sublist l := by
  induction l with
  | nil => cases ha
  | cons c l ih =>
    rcases List.mem_cons.1 ha with rfl | ha'
    · rcases List.mem_cons.1 hb with hba | hb'
      · exact absurd hba.symm hab
      · exact Or.inl (List.Sublist.cons₂ a (List.singleton_sublist.2 hb'))
    · rcases List.mem_cons.1 hb with rfl | hb'
      · exact Or.inr (List.Sublist.cons₂ b (List.singleton_sublist.2 ha'))
      · rcases ih ha' hb' with h1 | h1
        · exact Or.inl (List.Sublist.cons c h1)
        · exact Or.inr (List.Sublist.cons c h1)

theorem le_elem_of_pair_sublist (h : Heap) (A : List Nat) {a b : Nat}
    (hab : [a, b].Sublist (A.mergeSort (le_elem h))) : le_elem h a b = true := by
  have hp : List.Pairwise (fun a b => le_elem h a b = true) [a, b] :=
    List.Pairwise.sublist hab (sorted_mergeSort_elems h A)
  exact (@List.pairwise_pair Nat (fun a b => le_elem h a b = true) a b).1 hp

theorem absent_wf : wf absent_heap demo_queue [1, 2] :=
  ⟨⟨rfl, { value := some [98], next := some 2 }, rfl, rfl,
    { value := none, next := none }, rfl, rfl⟩, rfl, rfl, by decide⟩

/-! ## The midpoint split -/

theorem merge_sort_unfold_split {h : Heap} {a b : Nat} {e : list_ele_t} (depth fuel : Nat)
    (he : h a = some e) (hb : e.next = some b) :
    merge_sort (depth + 1) fuel h (some a) =
      match merge_sort_split fuel h a b with
      | none => none
      | some (h1, left, right) =>
        match merge_sort depth fuel h1 left with
        | none => none
        | some (h2, l) =>
          match merge_sort depth fuel h2 right with
          | none => none
          | some (h3, r) => merge fuel h3 l r := by
  rw [merge_sort]
  simp only [he, hb, merge_sort_split]
  cases hs : split_loop fuel h (some b) (some a) with
  | none => rfl
  | some s =>
    cases s with
    | none => rfl
    | some s =>
      simp only
      cases hse : h s with
      | none => rfl
      | some se => rfl

theorem merge_sort_split_ok {h : Heap} {a b : Nat} {T : List Nat} {fuel : Nat}
    (hc : chain h (some a) (a :: b :: T)) (hfuel : (T.length + 1) / 2 ≤ fuel) :
    ∃ h1 right, merge_sort_split fuel h a b = some (h1, some a, right) ∧
      chain h1 (some a) ((a :: b :: T).take ((T.length + 3) / 2)) ∧
      chain h1 right ((a :: b :: T).drop ((T.length + 3) / 2)) ∧
      same_values h h1 ∧ (∀ x, x ∉ a :: b :: T → h1 x = h x) := by
  have hc0 := hc
  obtain ⟨_, ea, hea, hb, eb, heb, hT⟩ := hc
  have hk : ((b :: T).length / 2) + 1 = (T.length + 3) / 2 := by
    simp only [List.length_cons]; omega
  have hkl : (b :: T).length / 2 < (a :: b :: T).length := by
    simp only [List.length_cons]; omega
  have hsplit := split_loop_ok fuel (b :: T) (a :: b :: T) h (some b) (some a)
    ⟨rfl, eb, heb, hT⟩ hc0 hkl (by simpa using hfuel)
  rw [List.head?_drop, List.getElem?_eq_getElem hkl] at hsplit
  have hL : (a :: b :: T) = (a :: b :: T).take ((b :: T).length / 2) ++
      (a :: b :: T)[(b :: T).length / 2] :: (a :: b :: T).drop ((b :: T).length / 2 + 1) := by
    rw [← List.drop_eq_getElem_cons hkl, List.take_append_drop]
  have hc1 := hc0
  rw [hL] at hc1
  obtain ⟨se, hse, hA, hB⟩ := chain_cut hc1
  have htake : (a :: b :: T).take ((b :: T).length / 2) ++ [(a :: b :: T)[(b :: T).length / 2]]
      = (a :: b :: T).take ((T.length + 3) / 2) := by
    rw [← hk, ← List.take_concat_get _ _ hkl, List.concat_eq_append]
  rw [htake] at hA
  rw [hk] at hB
  refine ⟨_, se.next, ?_, hA, hB, same_values_relink hse none, ?_⟩
  · simp only [merge_sort_split, hsplit, hse]
  · intro x hx
    refine write_other _ _ _ _ ?_
    rintro rfl
    exact hx (List.getElem_mem _)

/-! ## Insertions at the head followed by removals -/

theorem insert_head_all_ok : ∀ (items : List (Nat × List Nat)) (h : Heap) (q : queue_t)
    (A : List Nat), shape h q A → (items.map Prod.fst).Nodup →
    (∀ a ∈ items.map Prod.fst, h a = none) →
    ∃ h1 q1, insert_head_all h (some q) items = some (h1, some q1) ∧
      shape h1 q1 ((items.map Prod.fst).reverse ++ A) ∧
      vals h1 ((items.map Prod.fst).reverse ++ A)
        = (items.map (fun it => some it.2)).reverse ++ vals h A := by
  intro items
  induction items with
  | nil =>
    intro h q A hw _ _
    exact ⟨h, q, rfl, by simpa using hw, by simp⟩
  | cons it rest ih =>
    intro h q A hw hnd hfresh
    obtain ⟨a, s⟩ := it
    simp only [List.map_cons, List.nodup_cons] at hnd
    have hf : h a = none := hfresh a (by simp)
    have hrun := q_insert_head_eq h q s a
    have hw' := shape_insert_head s hw hf
    have hv := vals_insert_head s q.head hw.1 hf
    have hfresh' : ∀ x ∈ rest.map Prod.fst,
        (h.write a (some { value := some s, next := q.head })) x = none := by
      intro x hx
      have hxa : x ≠ a := by
        rintro rfl
        exact hnd.1 hx
      rw [write_other _ _ _ _ hxa]
      exact hfresh x (by simp only [List.map_cons]; exact List.mem_cons_of_mem _ hx)
    obtain ⟨h1, q1, hrun1, hw1, hv1⟩ := ih _ _ (a :: A) hw' hnd.2 hfresh'
    refine ⟨h1, q1, ?_, ?_, ?_⟩
    · simp only [insert_head_all, hrun]
      exact hrun1
    · simpa using hw1
    · simpa [hv] using hv1

theorem insert_remove_restores {h : Heap} {q : queue_t} {A : List Nat} (s : List Nat)
    {a : Nat} (b : Buffer) (n : Nat) (hw : shape h q A) (hf : h a = none) :
    q_remove_head (h.write a (some { value := some s, next := q.head }))
        (some { head := some a, tail := if q.tail = none then some a else q.tail,
                size := to_int (q.size + 1) }) (some b) n
      = some (true, h, some q, some (snprintf b n s)) := by
  have he : (h.write a (some { value := some s, next := q.head })) a
      = some { value := some s, next := q.head } := write_same _ _ _
  rw [q_remove_head_eq rfl he, write_write, write_fresh h a hf]
  obtain ⟨hc, ht, hs⟩ := hw
  have hsz : to_int (to_int (q.size + 1) - 1) = q.size := by
    rw [to_int_pred, add_sub_cancel_right, hs, to_int_idem]
  obtain ⟨qh, qt, qs⟩ := q
  simp only at hc ht hs hsz ⊢
  cases A with
  | nil =>
    have h1 : qh = none := hc
    have h2 : qt = none := ht
    subst h1 h2
    simp [hsz]
  | cons x A =>
    have h1 : qh = some x := hc.1
    have h2 : qt ≠ none := by
      rw [ht]; simp [List.getLast?_cons]
    subst h1
    simp [h2, hsz]

/-! ## Runs that make the counter wrap -/

theorem at_int_of_shape {h : Heap} {q : queue_t} {L : List Nat} (hs : shape h q L) :
    q.at_int = q := by
  obtain ⟨qh, qt, qs⟩ := q
  have h1 : qs = to_int (L.length : Int) := hs.2.2
  have h2 : to_int qs = qs := by rw [h1, to_int_idem]
  simp [queue_t.at_int, h2]

theorem q_size_of_shape {h : Heap} {q : queue_t} {L : List Nat} (hs : shape h q L) :
    q_size (some q) = to_int (L.length : Int) := by
  show to_int q.size = _
  rw [hs.2.2, to_int_idem]

theorem q_insert_head_size (h : Heap) (q : queue_t) (s : List Nat) (a : Nat) :
    (q_insert_head h (some q) s (some a) true).map
        (fun r => (r.1, r.2.2.map (fun q' => q'.size)))
      = some (true, some (to_int (q.size + 1))) := by
  rw [q_insert_head_eq]
  rfl

theorem q_insert_tail_size {h : Heap} {q : queue_t} {A : List Nat} (s : List Nat) {a : Nat}
    (hw : shape h q A) (hf : h a = none) :
    (q_insert_tail h (some q) s (some a) true).map
        (fun r => (r.1, r.2.2.map (fun q' => q'.size)))
      = some (true, some (to_int (q.size + 1))) := by
  obtain ⟨h', q', hrun, hw', _⟩ := q_insert_tail_ok s hw hf
  rw [hrun]
  simp only [Option.map_some', Option.some.injEq, Prod.mk.injEq, true_and]
  rw [hw'.2.2, hw.2.2, to_int_succ]
  congr 1
  simp

theorem reachable32_shape {h : Heap} {q : queue_t} (hr : Reachable32 h q) :
    ∃ L, shape h q L := by
  induction hr with
  | new h q hq =>
    simp only [q_new, if_true, Option.some.injEq] at hq
    subst hq
    exact ⟨[], rfl, rfl, rfl⟩
  | insert_head h q s a h' q' _ hm hrun ih =>
    obtain ⟨L, hw⟩ := ih
    have hf : h a = none := hm a rfl
    rw [q_insert_head_eq] at hrun
    simp only [Option.some.injEq, Prod.mk.injEq, true_and] at hrun
    obtain ⟨rfl, rfl⟩ := hrun
    have hw' := shape_insert_head s hw hf
    rw [at_int_of_shape hw']
    exact ⟨_, hw'⟩
  | insert_tail h q s a h' q' _ hm hrun ih =>
    obtain ⟨L, hw⟩ := ih
    have hf : h a = none := hm a rfl
    obtain ⟨h1, q1, hrun1, hw1, _⟩ := q_insert_tail_ok s hw hf
    rw [hrun1] at hrun
    simp only [Option.some.injEq, Prod.mk.injEq, true_and] at hrun
    obtain ⟨rfl, rfl⟩ := hrun
    rw [at_int_of_shape hw1]
    exact ⟨_, hw1⟩
  | remove_head h q sp n h' q' sp' _ hrun ih =>
    obtain ⟨L, hw⟩ := ih
    cases L with
    | nil =>
      have hq : q.head = none := hw.1
      simp [q_remove_head, hq] at hrun
    | cons x L =>
      have hq : q.head = some x := hw.1.1
      obtain ⟨e, he, _⟩ := hw.1.2
      rw [q_remove_head_eq hq he] at hrun
      simp only [Option.some.injEq, Prod.mk.injEq, true_and] at hrun
      obtain ⟨rfl, rfl, _⟩ := hrun
      have hw' := (shape_remove_head hw he).1
      rw [at_int_of_shape hw']
      exact ⟨_, hw'⟩

theorem push_many_succ (n : Nat) (L : List Nat) (hs : shape (push_many n).1 (push_many n).2 L)
    (hf : (push_many n).1 n = none) :
    push_many (n + 1) =
      ((push_many n).1.write n (some { value := some [], next := (push_many n).2.head }),
        queue_t.mk (some n)
          (if (push_many n).2.tail = none then some n else (push_many n).2.tail)
          (to_int ((push_many n).2.size + 1))) := by
  have hw' := shape_insert_head [] hs hf
  rw [push_many, q_insert_head_eq]
  simp only
  rw [at_int_of_shape hw']

theorem push_many_spec : ∀ n : Nat,
    Reachable32 (push_many n).1 (push_many n).2 ∧
    (push_many n).2.size = to_int (n : Int) ∧
    (∀ x, n ≤ x → (push_many n).1 x = none) := by
  intro n
  induction n with
  | zero =>
    exact ⟨Reachable32.new _ _ rfl, by simp [push_many, to_int], fun _ _ => rfl⟩
  | succ n ih =>
    obtain ⟨hr, hs, hfree⟩ := ih
    obtain ⟨L, hsh⟩ := reachable32_shape hr
    have hf : (push_many n).1 n = none := hfree n (le_refl _)
    have hm : malloc_ok (push_many n).1 (some n) := by
      intro a ha
      cases ha
      exact hf
    have hrun := q_insert_head_eq (push_many n).1 (push_many n).2 [] n
    have hstep := Reachable32.insert_head _ _ [] n _ _ hr hm hrun
    rw [at_int_of_shape (shape_insert_head [] hsh hf)] at hstep
    rw [push_many_succ n L hsh hf]
    refine ⟨hstep, ?_, ?_⟩
    · show to_int ((push_many n).2.size + 1) = to_int ((n + 1 : Nat) : Int)
      rw [hs, to_int_succ]
      simp
    · intro x hx
      have hxn : x ≠ n := by omega
      show ((push_many n).1.write n _) x = none
      rw [write_other _ _ _ _ hxn]
      exact hfree x (by omega)

theorem push_many_shape (n : Nat) : ∃ L, shape (push_many n).1 (push_many n).2 L :=
  reachable32_shape (push_many_spec n).1

theorem push_many_fresh (n : Nat) : malloc_ok (push_many n).1 (some n) := by
  intro a ha
  cases ha
  exact (push_many_spec n).2.2 n (le_refl _)

theorem push_many_more : ∀ n : Nat,
    Reachable (push_many n).1 (push_many n).2 ∧
    Counted (push_many n).1 (push_many n).2 n 0 ∧
    (0 < n → (push_many n).2.head = some (n - 1)) := by
  intro n
  induction n with
  | zero =>
    exact ⟨Reachable.new _ _ rfl, Counted.new _ _ rfl, fun h0 => absurd h0 (by decide)⟩
  | succ n ih =>
    obtain ⟨hr, hc, _⟩ := ih
    obtain ⟨L, hsh⟩ := push_many_shape n
    have hm := push_many_fresh n
    have hf : (push_many n).1 n = none := hm n rfl
    have hrun := q_insert_head_eq (push_many n).1 (push_many n).2 [] n
    have hal : (Call.insert_head [] (some n) true).allowed (push_many n).1 := hm
    have hrc := congrArg (Option.map (fun r => r.2)) hrun
    have h1 := Reachable.step _ _ (Call.insert_head [] (some n) true) _ _ hr hal hrc
    have h2 := Counted.step _ _ (Call.insert_head [] (some n) true) true _ _ n 0 hc hal hrun
    simp only [Call.is_insert, Call.is_remove, Bool.and_self, if_true, Bool.false_and,
      Bool.false_eq_true, if_false, Nat.add_zero] at h2
    rw [push_many_succ n L hsh hf]
    exact ⟨h1, h2, fun _ => by simp⟩

theorem q_size_push_many (n : Nat) : q_size (some (push_many n).2) = to_int (n : Int) := by
  obtain ⟨L, hsh⟩ := push_many_shape n
  show to_int (push_many n).2.size = _
  rw [(push_many_spec n).2.1, to_int_idem]

theorem to_int_overflow : to_int ((2147483648 : Nat) : Int) = -2147483648 := by
  unfold to_int
  norm_num

theorem to_int_max : to_int ((2147483647 : Nat) : Int) = 2147483647 := by
  unfold to_int
  norm_num

theorem to_int_max_succ : to_int (2147483647 + 1) = -2147483648 := by
  unfold to_int
  norm_num

theorem to_int_cycle : to_int ((4294967296 : Nat) : Int) = 0 := by
  unfold to_int
  norm_num

/-! ## The claims -/

/-- Counterexample to C1: after 4294967296 successful calls of `q_insert_head`
on a new queue the counter has wrapped to 0 while the queue is not empty:
`size` is 0 and `head` is the element inserted last, so `size == 0` does not
imply that `head` and `tail` are absent. -/
theorem size_zero_nonempty :
    Reachable (push_many 4294967296).1 (push_many 4294967296).2 ∧
    (push_many 4294967296).2.size = 0 ∧
    (push_many 4294967296).2.head = some 4294967295 ∧
    ¬ ((push_many 4294967296).2.size = 0 ↔
        (push_many 4294967296).2.head = none ∧ (push_many 4294967296).2.tail = none) :=
  ⟨(push_many_more 4294967296).1,
    ((push_many_spec 4294967296).2.1).trans to_int_cycle,
    (push_many_more 4294967296).2.2 (by decide),
    fun hiff => Option.noConfusion
      (((push_many_more 4294967296).2.2 (by decide)).symm.trans
        (hiff.1 (((push_many_spec 4294967296).2.1).trans to_int_cycle)).1)⟩

/-- C1 (amended): in every state reachable from `q_new` by calls of
`q_insert_head`, `q_insert_tail`, `q_remove_head`, `q_reverse` and `q_sort`
the elements linked from `head` form a list `L` ending in `NULL` whose last
element is `tail` (so `head` is absent exactly when `tail` is, and then `size`
is 0), the successor of the tail element is absent, and `size` is the number
of elements as it is stored in a 32-bit `int`.  While the queue holds fewer
than 4294967296 elements, `size` is 0 exactly when `head` and `tail` are both
absent and `size` 1 implies that `head` and `tail` are the same element;
while it holds fewer than 2147483648 elements, `size` is the number of
elements. -/
theorem reachable_invariant (h : Heap) (q : queue_t) (hr : Reachable h q) :
    ∃ L, chain h q.head L ∧ q.tail = L.getLast? ∧ q.size = to_int (L.length : Int) ∧
      (q.head = none ↔ q.tail = none) ∧
      (q.head = none ∧ q.tail = none → q.size = 0) ∧
      (∀ t, q.tail = some t → ∃ e, h t = some e ∧ e.next = none) ∧
      (L.length < 4294967296 →
        (q.size = 0 ↔ q.head = none ∧ q.tail = none) ∧ (q.size = 1 → q.head = q.tail)) ∧
      (L.length < 2147483648 → q.size = (L.length : Int)) := by
  obtain ⟨L, hw⟩ := reachable_shape hr
  obtain ⟨h1, h2, h3, h4, h5⟩ := shape_props hw
  exact ⟨L, hw.1, hw.2.1, hw.2.2, h1, h2, h3, h4, h5⟩

/-- Witness of C1 (amended): the invariant at the reachable state
`demo_state`. -/
theorem reachable_invariant_witness :
    Reachable demo_state.1 demo_state.2 ∧
    ∃ L, chain demo_state.1 demo_state.2.head L ∧ demo_state.2.tail = L.getLast? ∧
      demo_state.2.size = to_int (L.length : Int) ∧
      (demo_state.2.head = none ↔ demo_state.2.tail = none) ∧
      (demo_state.2.head = none ∧ demo_state.2.tail = none → demo_state.2.size = 0) ∧
      (∀ t, demo_state.2.tail = some t → ∃ e, demo_state.1 t = some e ∧ e.next = none) ∧
      (L.length < 4294967296 →
        (demo_state.2.size = 0 ↔ demo_state.2.head = none ∧ demo_state.2.tail = none) ∧
        (demo_state.2.size = 1 → demo_state.2.head = demo_state.2.tail)) ∧
      (L.length < 2147483648 → demo_state.2.size = (L.length : Int)) :=
  ⟨demo_reachable, reachable_invariant demo_state.1 demo_state.2 demo_reachable⟩

/-- Counterexample to C2: on the queue of 2147483647 elements reached by as
many successful calls of `q_insert_head`, whose `size` is 2147483647, one more
`q_insert_head` returns true and leaves `size` at -2147483648: the counter
is not increased by 1. -/
theorem q_insert_head_wraps :
    Reachable (push_many 2147483647).1 (push_many 2147483647).2 ∧
    malloc_ok (push_many 2147483647).1 (some 2147483647) ∧
    (push_many 2147483647).2.size = 2147483647 ∧
    (q_insert_head (push_many 2147483647).1 (some (push_many 2147483647).2) []
        (some 2147483647) true).map (fun r => (r.1, r.2.2.map (fun q' => q'.size)))
      = some (true, some (-2147483648)) := by
  have hsize : (push_many 2147483647).2.size = 2147483647 :=
    ((push_many_spec 2147483647).2.1).trans to_int_max
  refine ⟨(push_many_more 2147483647).1, push_many_fresh 2147483647, hsize, ?_⟩
  rw [q_insert_head_size, hsize, to_int_max_succ]

/-- C2 (amended): on a present queue with elements `A` (links right, `size`
the number of elements as stored in an `int`), when both allocations succeed
(the element is placed at the fresh address `a`), `q_insert_head` returns
true; afterwards the elements are `a :: A`, the values are `s` followed by
the old values, the new element holds exactly `s` and has the old head as
successor, no other cell changed, and the new element is also the tail when
`A` was empty.  `size` becomes `size + 1` reduced to the range of `int`: it
grows by exactly 1 whenever it was below 2147483647 (then a well-formed queue
stays well-formed) and wraps to -2147483648 from 2147483647. -/
theorem q_insert_head_spec (h : Heap) (q : queue_t) (A : List Nat) (s : List Nat) (a : Nat)
    (hw : shape h q A) (hm : malloc_ok h (some a)) :
    ∃ h' q', q_insert_head h (some q) s (some a) true = some (true, h', some q') ∧
      shape h' q' (a :: A) ∧ vals h' (a :: A) = some s :: vals h A ∧
      h' a = some { value := some s, next := q.head } ∧
      (∀ x, x ≠ a → h' x = h x) ∧
      q'.size = to_int (q.size + 1) ∧
      (q.size < 2147483647 → q'.size = q.size + 1) ∧
      (q.size = 2147483647 → q'.size = -2147483648) ∧
      (wf h q A → q.size < 2147483647 → wf h' q' (a :: A)) ∧
      q'.head = some a ∧ (A = [] → q'.tail = some a) := by
  have hf : h a = none := hm a rfl
  have hsh := shape_insert_head s hw hf
  have hlow : -2147483648 ≤ q.size := by rw [hw.2.2]; exact (to_int_bounds _).1
  refine ⟨_, _, q_insert_head_eq h q s a, hsh,
    vals_insert_head s q.head hw.1 hf, write_same _ _ _, fun x hx => write_other _ _ _ _ hx,
    rfl, ?_, ?_, ?_, rfl, ?_⟩
  · intro hlt
    exact to_int_range _ (by omega) (by omega)
  · intro heq
    show to_int (q.size + 1) = -2147483648
    rw [heq]; exact to_int_max_succ
  · intro hwf hlt
    refine shape_wf hsh ?_
    have := hwf.2.2.1
    simp only [List.length_cons]
    push_cast
    omega
  · intro hA
    subst hA
    have ht : q.tail = none := hw.2.1
    simp [ht]

/-- Witness of C2 (amended): an insertion at the head of the two-element queue
`demo_queue`. -/
theorem q_insert_head_spec_witness :
    shape demo_heap demo_queue [1, 2] ∧ malloc_ok demo_heap (some 3) ∧
    ∃ h' q', q_insert_head demo_heap (some demo_queue) [99] (some 3) true
        = some (true, h', some q') ∧
      shape h' q' [3, 1, 2] ∧ vals h' [3, 1, 2] = some [99] :: vals demo_heap [1, 2] ∧
      h' 3 = some { value := some [99], next := demo_queue.head } ∧
      (∀ x, x ≠ 3 → h' x = demo_heap x) ∧
      q'.size = to_int (demo_queue.size + 1) ∧
      (demo_queue.size < 2147483647 → q'.size = demo_queue.size + 1) ∧
      (demo_queue.size = 2147483647 → q'.size = -2147483648) ∧
      (wf demo_heap demo_queue [1, 2] → demo_queue.size < 2147483647 → wf h' q' [3, 1, 2]) ∧
      q'.head = some 3 ∧ (([1, 2] : List Nat) = [] → q'.tail = some 3) :=
  ⟨demo_shape, demo_malloc_ok,
    q_insert_head_spec demo_heap demo_queue [1, 2] [99] 3 demo_shape demo_malloc_ok⟩

/-- Counterexample to C3: on the queue of 2147483647 elements reached by as
many successful insertions, whose `size` is 2147483647, `q_insert_tail`
returns true and leaves `size` at -2147483648: the counter is not increased
by 1. -/
theorem q_insert_tail_wraps :
    Reachable (push_many 2147483647).1 (push_many 2147483647).2 ∧
    malloc_ok (push_many 2147483647).1 (some 2147483647) ∧
    (push_many 2147483647).2.size = 2147483647 ∧
    (q_insert_tail (push_many 2147483647).1 (some (push_many 2147483647).2) []
        (some 2147483647) true).map (fun r => (r.1, r.2.2.map (fun q' => q'.size)))
      = some (true, some (-2147483648)) := by
  have hsize : (push_many 2147483647).2.size = 2147483647 :=
    ((push_many_spec 2147483647).2.1).trans to_int_max
  obtain ⟨L, hsh⟩ := push_many_shape 2147483647
  refine ⟨(push_many_more 2147483647).1, push_many_fresh 2147483647, hsize, ?_⟩
  rw [q_insert_tail_size [] hsh (push_many_fresh 2147483647 _ rfl), hsize, to_int_max_succ]

/-- C3 (amended): on a present queue with elements `A` (links right, `size`
the number of elements as stored in an `int`), when both allocations succeed
(the element is placed at the fresh address `a`), `q_insert_tail` returns
true; afterwards the elements are `A ++ [a]` (the existing elements in their
order), the values are the old values followed by `s`, `tail` is the new
element, and `head` is the new element exactly when `A` was empty.  `size`
becomes `size + 1` reduced to the range of `int`: it grows by exactly 1
whenever it was below 2147483647 (then a well-formed queue stays well-formed)
and wraps to -2147483648 from 2147483647. -/
theorem q_insert_tail_spec (h : Heap) (q : queue_t) (A : List Nat) (s : List Nat) (a : Nat)
    (hw : shape h q A) (hm : malloc_ok h (some a)) :
    ∃ h' q', q_insert_tail h (some q) s (some a) true = some (true, h', some q') ∧
      shape h' q' (A ++ [a]) ∧ vals h' (A ++ [a]) = vals h A ++ [some s] ∧
      q'.size = to_int (q.size + 1) ∧
      (q.size < 2147483647 → q'.size = q.size + 1) ∧
      (q.size = 2147483647 → q'.size = -2147483648) ∧
      (wf h q A → q.size < 2147483647 → wf h' q' (A ++ [a])) ∧
      q'.tail = some a ∧ (q'.head = some a ↔ A = []) := by
  have hf : h a = none := hm a rfl
  have hna : a ∉ A := not_mem_of_fresh hw.1 hf
  have hlow : -2147483648 ≤ q.size := by rw [hw.2.2]; exact (to_int_bounds _).1
  obtain ⟨h', q', hrun, hw', hv, hhd, _⟩ := q_insert_tail_ok s hw hf
  have hsz : q'.size = to_int (q.size + 1) := by
    rw [hw'.2.2, hw.2.2, to_int_succ]
    congr 1
    simp
  refine ⟨h', q', hrun, hw', hv, hsz, ?_, ?_, ?_, ?_, ?_⟩
  · intro hlt
    rw [hsz]
    exact to_int_range _ (by omega) (by omega)
  · intro heq
    rw [hsz, heq]; exact to_int_max_succ
  · intro hwf hlt
    refine shape_wf hw' ?_
    have := hwf.2.2.1
    simp only [List.length_append, List.length_cons, List.length_nil]
    push_cast
    omega
  · rw [hw'.2.1]; simp
  · rw [hhd]
    constructor
    · intro hq
      by_contra hA
      rw [if_neg hA] at hq
      have := chain_head hw.1
      rw [hq] at this
      cases A with
      | nil => exact hA rfl
      | cons b B =>
        simp only [List.head?_cons, Option.some.injEq] at this
        exact hna (this ▸ List.mem_cons_self _ _)
    · intro hA
      rw [if_pos hA]

/-- Witness of C3 (amended): an insertion at the tail of the two-element queue
`demo_queue`. -/
theorem q_insert_tail_spec_witness :
    shape demo_heap demo_queue [1, 2] ∧ malloc_ok demo_heap (some 3) ∧
    ∃ h' q', q_insert_tail demo_heap (some demo_queue) [99] (some 3) true
        = some (true, h', some q') ∧
      shape h' q' ([1, 2] ++ [3]) ∧
      vals h' ([1, 2] ++ [3]) = vals demo_heap [1, 2] ++ [some [99]] ∧
      q'.size = to_int (demo_queue.size + 1) ∧
      (demo_queue.size < 2147483647 → q'.size = demo_queue.size + 1) ∧
      (demo_queue.size = 2147483647 → q'.size = -2147483648) ∧
      (wf demo_heap demo_queue [1, 2] → demo_queue.size < 2147483647 →
        wf h' q' ([1, 2] ++ [3])) ∧
      q'.tail = some 3 ∧ (q'.head = some 3 ↔ ([1, 2] : List Nat) = []) :=
  ⟨demo_shape, demo_malloc_ok,
    q_insert_tail_spec demo_heap demo_queue [1, 2] [99] 3 demo_shape demo_malloc_ok⟩

/-- C5: the FIFO law.  Starting from a new queue in a heap where the addresses
handed out by `malloc` are fresh and distinct, inserting the strings of
`items` at the tail (all allocations succeed) and then calling
`q_remove_head` once per item, each time with a buffer whose capacity exceeds
the length of the string, succeeds; every removal returns true, the buffers
hold the original strings in the original order (each followed by its
terminator), and the queue is left with `size` 0 and `head` and `tail`
absent. -/
theorem fifo_law (h0 : Heap) (items : List (Nat × List Nat)) (bufs : List (Buffer × Nat))
    (hnd : (items.map Prod.fst).Nodup) (hfresh : ∀ a ∈ items.map Prod.fst, h0 a = none)
    (hbig : List.Forall₂ (fun (it : Nat × List Nat) (bn : Buffer × Nat) => it.2.length < bn.2)
      items bufs) :
    ∃ h1 q1 outs h2, insert_tail_all h0 (q_new true) items = some (h1, some q1) ∧
      remove_head_all h1 (some q1) bufs
        = some (outs, h2, some { head := none, tail := none, size := 0 }) ∧
      List.Forall₂ (fun (it : Nat × List Nat) (o : Bool × Option Buffer) =>
        o.1 = true ∧ holds o.2 it.2) items outs := by
  have hw0 : shape h0 { head := none, tail := none, size := 0 } [] := ⟨rfl, rfl, rfl⟩
  obtain ⟨h1, q1, hrun1, hw1, hv1⟩ := insert_tail_all_ok items h0 _ [] hw0 hnd hfresh
  simp only [List.nil_append, vals, List.map_nil] at hw1 hv1
  have hv1' : vals h1 (items.map Prod.fst) = (items.map Prod.snd).map some := by
    simpa [vals] using hv1
  have hbig' : List.Forall₂ (fun (s : List Nat) (bn : Buffer × Nat) => s.length < bn.2)
      (items.map Prod.snd) bufs := by
    rw [List.forall₂_map_left_iff]; exact hbig
  obtain ⟨outs, h2, hrun2, hall⟩ :=
    remove_head_all_ok (items.map Prod.snd) _ h1 q1 bufs hw1 hv1' hbig'
  refine ⟨h1, q1, outs, h2, hrun1, hrun2, ?_⟩
  rw [List.forall₂_map_left_iff] at hall
  exact hall

/-- Witness of C5: "a" then "b" go through a new queue in the empty heap. -/
theorem fifo_law_witness :
    (([(1, [97]), (2, [98])] : List (Nat × List Nat)).map Prod.fst).Nodup ∧
    (∀ a ∈ ([(1, [97]), (2, [98])] : List (Nat × List Nat)).map Prod.fst,
      empty_heap a = none) ∧
    List.Forall₂ (fun (it : Nat × List Nat) (bn : Buffer × Nat) => it.2.length < bn.2)
      [(1, [97]), (2, [98])] [(blank, 2), (blank, 8)] ∧
    ∃ h1 q1 outs h2,
      insert_tail_all empty_heap (q_new true) [(1, [97]), (2, [98])] = some (h1, some q1) ∧
      remove_head_all h1 (some q1) [(blank, 2), (blank, 8)]
        = some (outs, h2, some { head := none, tail := none, size := 0 }) ∧
      List.Forall₂ (fun (it : Nat × List Nat) (o : Bool × Option Buffer) =>
        o.1 = true ∧ holds o.2 it.2) [(1, [97]), (2, [98])] outs :=
  ⟨by decide, fun _ _ => rfl,
    List.Forall₂.cons (by decide) (List.Forall₂.cons (by decide) List.Forall₂.nil),
    fifo_law empty_heap [(1, [97]), (2, [98])] [(blank, 2), (blank, 8)] (by decide)
      (fun _ _ => rfl)
      (List.Forall₂.cons (by decide) (List.Forall₂.cons (by decide) List.Forall₂.nil))⟩

/-- C6: on a well-formed queue all of whose elements have present values,
`q_sort` (given budgets that cover the number of elements) returns, and the
values read from head to tail are then in non-decreasing order for `strcmp`:
for every value and every later value `strcmp` is not positive, that is, the
two byte strings are equal or lexicographically ordered.  The scenario of the specification evaluates to "apple", "banana", "cherry". -/
theorem q_sort_ascending (h : Heap) (q : queue_t) (A : List Nat) (depth fuel : Nat)
    (hw : wf h q A) (hpres : ∀ a ∈ A, ∃ v, value_at h a = some v)
    (hdepth : A.length ≤ 2 ^ depth) (hfuel : A.length ≤ fuel) :
    (∃ h' q' A', q_sort depth fuel h (some q) = some (h', some q') ∧ wf h' q' A' ∧
      List.Pairwise (fun u v => ∃ s t, u = some s ∧ v = some t ∧ strcmp s t ≤ 0 ∧
          (s = t ∨ List.Lex (fun a b => a < b) s t))
        (vals h' A')) ∧
    sort_scenario = some [[97, 112, 112, 108, 101, 0], [98, 97, 110, 97, 110, 97, 0],
      [99, 104, 101, 114, 114, 121, 0]] := by
  refine ⟨?_, by decide⟩
  obtain ⟨h', q', hrun, hw', hV, _, _⟩ := q_sort_ok (wf_shape hw) hdepth hfuel
  refine ⟨h', q', _, hrun,
    shape_wf hw' (by rw [List.length_mergeSort]; exact wf_bound hw), ?_⟩
  unfold vals
  rw [List.pairwise_map]
  refine List.Pairwise.imp_of_mem ?_ (sorted_mergeSort_elems h A)
  intro a b ha hb hab
  obtain ⟨s, hs⟩ := hpres a (List.mem_mergeSort.1 ha)
  obtain ⟨t, ht⟩ := hpres b (List.mem_mergeSort.1 hb)
  refine ⟨s, t, ?_, ?_, ?_⟩
  · rw [same_values_value_at hV, hs]
  · rw [same_values_value_at hV, ht]
  · have hle : strcmp s t ≤ 0 := by simpa [le_elem, le_value, hs, ht] using hab
    exact ⟨hle, (strcmp_le_iff_lex s t).1 hle⟩

/-- Witness of C6: sorting the two-element queue `demo_queue`. -/
theorem q_sort_ascending_witness :
    wf demo_heap demo_queue [1, 2] ∧ (∀ a ∈ [1, 2], ∃ v, value_at demo_heap a = some v) ∧
    ([1, 2] : List Nat).length ≤ 2 ^ 1 ∧ ([1, 2] : List Nat).length ≤ 2 ∧
    ((∃ h' q' A', q_sort 1 2 demo_heap (some demo_queue) = some (h', some q') ∧ wf h' q' A' ∧
      List.Pairwise (fun u v => ∃ s t, u = some s ∧ v = some t ∧ strcmp s t ≤ 0 ∧
          (s = t ∨ List.Lex (fun a b => a < b) s t))
        (vals h' A')) ∧
    sort_scenario = some [[97, 112, 112, 108, 101, 0], [98, 97, 110, 97, 110, 97, 0],
      [99, 104, 101, 114, 114, 121, 0]]) :=
  have hp : ∀ a ∈ [1, 2], ∃ v, value_at demo_heap a = some v := by
    intro a ha
    simp only [List.mem_cons, List.mem_singleton, List.not_mem_nil, or_false] at ha
    rcases ha with rfl | rfl
    · exact ⟨[98], rfl⟩
    · exact ⟨[97], rfl⟩
  ⟨demo_wf, hp, by decide, by decide,
    q_sort_ascending demo_heap demo_queue [1, 2] 1 2 demo_wf hp (by decide) (by decide)⟩

/-- C7: `q_sort` only reorders.  On a well-formed queue with elements `A`
(budgets covering the number of elements) it returns a well-formed queue
whose elements `A'` are a permutation of `A` without repetition; every cell
keeps its value, no cell is created or released, cells outside the queue are
untouched and `size` is unchanged.  When the queue has at most one element
`q_sort` returns the heap and the queue record unchanged, and on an absent
queue it does nothing. -/
theorem q_sort_permutation (h : Heap) (q : queue_t) (A : List Nat) (depth fuel : Nat)
    (hw : wf h q A) (hdepth : A.length ≤ 2 ^ depth) (hfuel : A.length ≤ fuel) :
    (∃ h' q' A', q_sort depth fuel h (some q) = some (h', some q') ∧ wf h' q' A' ∧
      A'.Perm A ∧ A'.Nodup ∧ same_values h h' ∧ vals h' A = vals h A ∧
      (∀ x, x ∉ A → h' x = h x) ∧ q'.size = q.size) ∧
    (A.length ≤ 1 → ∀ d f, q_sort d f h (some q) = some (h, some q)) ∧
    (∀ d f, q_sort d f h none = some (h, none)) := by
  refine ⟨?_, ?_, fun _ _ => rfl⟩
  · obtain ⟨h', q', hrun, hw', hV, hF, hs⟩ := q_sort_ok (wf_shape hw) hdepth hfuel
    exact ⟨h', q', _, hrun, shape_wf hw' (by rw [List.length_mergeSort]; exact wf_bound hw),
      List.mergeSort_perm A _, chain_nodup hw'.1, hV, same_values_vals hV A, hF, hs⟩
  · intro hlen d f
    obtain ⟨hc, ht, hs, _⟩ := hw
    match A, hc, ht, hlen with
    | [], hc, _, _ =>
      have hq : q.head = none := hc
      simp [q_sort, hq]
    | [a], hc, ht, _ =>
      have hq : q.head = some a := hc.1
      obtain ⟨e, he, hn⟩ := hc.2
      have hn' : e.next = none := hn
      have hsmall := merge_sort_small d f hc (by simp)
      rw [hq] at hsmall
      have hlast : last_loop f h (some a) = some a := by
        unfold last_loop
        simp [he, hn']
      have ht' : q.tail = some a := ht
      simp only [q_sort, hq, hsmall, hlast]
      obtain ⟨qh, qt, qs⟩ := q
      simp only at hq ht'
      subst hq ht'
      rfl
    | _ :: _ :: _, _, _, hlen => simp at hlen

/-- Witness of C7: sorting the two-element queue `demo_queue`. -/
theorem q_sort_permutation_witness :
    wf demo_heap demo_queue [1, 2] ∧
    ([1, 2] : List Nat).length ≤ 2 ^ 1 ∧ ([1, 2] : List Nat).length ≤ 2 ∧
    ((∃ h' q' A', q_sort 1 2 demo_heap (some demo_queue) = some (h', some q') ∧ wf h' q' A' ∧
      A'.Perm [1, 2] ∧ A'.Nodup ∧ same_values demo_heap h' ∧
      vals h' [1, 2] = vals demo_heap [1, 2] ∧
      (∀ x, x ∉ [1, 2] → h' x = demo_heap x) ∧ q'.size = demo_queue.size) ∧
    (([1, 2] : List Nat).length ≤ 1 →
      ∀ d f, q_sort d f demo_heap (some demo_queue) = some (demo_heap, some demo_queue)) ∧
    (∀ d f, q_sort d f demo_heap none = some (demo_heap, none))) :=
  ⟨demo_wf, by decide, by decide,
    q_sort_permutation demo_heap demo_queue [1, 2] 1 2 demo_wf (by decide) (by decide)⟩

/-- C8: on a well-formed queue with elements `A` (budget covering the number
of elements) `q_reverse` returns a well-formed queue whose elements are
`A.reverse`; the values are the old values in reverse order, every cell keeps
its value, no cell is created or released, cells outside the queue are
untouched, `size` is unchanged, the new head is the old tail and the new tail
is the old head.  On an empty or absent queue nothing changes.  The scenario
of the specification yields "a" then "b". -/
theorem q_reverse_spec (h : Heap) (q : queue_t) (A : List Nat) (fuel : Nat)
    (hw : wf h q A) (hfuel : A.length ≤ fuel) :
    (∃ h' q', q_reverse fuel h (some q) = some (h', some q') ∧ wf h' q' A.reverse ∧
      vals h' A.reverse = (vals h A).reverse ∧ same_values h h' ∧
      (∀ x, x ∉ A → h' x = h x) ∧
      q'.size = q.size ∧ q'.head = q.tail ∧ q'.tail = q.head) ∧
    (A = [] → ∀ f, q_reverse f h (some q) = some (h, some q)) ∧
    (∀ f, q_reverse f h none = some (h, none)) ∧
    reverse_scenario = some [[97, 0], [98, 0]] := by
  refine ⟨?_, ?_, fun _ => rfl, by decide⟩
  · obtain ⟨h', q', hrun, hw', hV, hF, hh, ht, hs⟩ := q_reverse_ok (wf_shape hw) hfuel
    refine ⟨h', q', hrun, shape_wf hw' (by rw [List.length_reverse]; exact wf_bound hw), ?_,
      hV, hF, hs, hh, ht⟩
    rw [same_values_vals hV]
    simp [vals]
  · intro hA f
    subst hA
    have hq : q.head = none := hw.1
    simp [q_reverse, hq]

/-- Witness of C8: reversing the two-element queue `demo_queue`. -/
theorem q_reverse_spec_witness :
    wf demo_heap demo_queue [1, 2] ∧ ([1, 2] : List Nat).length ≤ 2 ∧
    ((∃ h' q', q_reverse 2 demo_heap (some demo_queue) = some (h', some q') ∧
      wf h' q' ([1, 2] : List Nat).reverse ∧
      vals h' ([1, 2] : List Nat).reverse = (vals demo_heap [1, 2]).reverse ∧
      same_values demo_heap h' ∧ (∀ x, x ∉ [1, 2] → h' x = demo_heap x) ∧
      q'.size = demo_queue.size ∧ q'.head = demo_queue.tail ∧ q'.tail = demo_queue.head) ∧
    (([1, 2] : List Nat) = [] →
      ∀ f, q_reverse f demo_heap (some demo_queue) = some (demo_heap, some demo_queue)) ∧
    (∀ f, q_reverse f demo_heap none = some (demo_heap, none)) ∧
    reverse_scenario = some [[97, 0], [98, 0]]) :=
  ⟨demo_wf, by decide, q_reverse_spec demo_heap demo_queue [1, 2] 2 demo_wf (by decide)⟩

/-- C9: `q_remove_head` returns false exactly when the queue is absent or has
no head.  In that case the call returns with the heap, the queue (so an empty
queue keeps its `size`) and the caller buffer unchanged; conversely a call
that returns false was made on an absent queue or a queue without head, and
on a well-formed non-empty queue the call returns true. -/
theorem q_remove_head_false (h : Heap) (q : Option queue_t) (sp : Option Buffer) (n : Nat) :
    ((q = none ∨ ∃ qs, q = some qs ∧ qs.head = none) →
      q_remove_head h q sp n = some (false, h, q, sp)) ∧
    (∀ r, q_remove_head h q sp n = some r → r.1 = false →
      (q = none ∨ ∃ qs, q = some qs ∧ qs.head = none)) ∧
    (∀ qs x A, q = some qs → wf h qs (x :: A) →
      ∃ r, q_remove_head h q sp n = some r ∧ r.1 = true) := by
  refine ⟨?_, ?_, ?_⟩
  · rintro (rfl | ⟨qs, rfl, hq⟩)
    · rfl
    · simp [q_remove_head, hq]
  · intro r hr hfalse
    cases q with
    | none => exact Or.inl rfl
    | some qs =>
      refine Or.inr ⟨qs, rfl, ?_⟩
      cases hq : qs.head with
      | none => rfl
      | some a =>
        exfalso
        cases he : h a with
        | none => simp [q_remove_head, hq, he] at hr
        | some e =>
          rw [q_remove_head_eq hq he] at hr
          cases hr
          cases hfalse
  · rintro qs x A rfl hw
    obtain ⟨e, he, _⟩ := hw.1.2
    exact ⟨_, q_remove_head_eq hw.1.1 he sp n, rfl⟩

/-- C10: `q_insert_head` and `q_insert_tail` return false exactly when the
queue is absent or an allocation of `create_ele` fails (the element, or the
string copy).  In that case the call returns with the heap and the queue
exactly as before; conversely a call that returns false was made on an absent
queue or with a failing allocation.  `q_insert_head` always returns. -/
theorem q_insert_false (h : Heap) (q : Option queue_t) (s : List Nat) (node : Option Nat)
    (str : Bool) (hm : malloc_ok h node) :
    ((q = none ∨ node = none ∨ str = false) →
      q_insert_head h q s node str = some (false, h, q) ∧
      q_insert_tail h q s node str = some (false, h, q)) ∧
    (∀ r, q_insert_head h q s node str = some r → r.1 = false →
      (q = none ∨ node = none ∨ str = false)) ∧
    (∀ r, q_insert_tail h q s node str = some r → r.1 = false →
      (q = none ∨ node = none ∨ str = false)) ∧
    (∃ r, q_insert_head h q s node str = some r) := by
  cases q with
  | none =>
    exact ⟨fun _ => ⟨rfl, rfl⟩, fun _ _ _ => Or.inl rfl, fun _ _ _ => Or.inl rfl, _, rfl⟩
  | some qs =>
    cases node with
    | none =>
      exact ⟨fun _ => ⟨rfl, rfl⟩, fun _ _ _ => Or.inr (Or.inl rfl),
        fun _ _ _ => Or.inr (Or.inl rfl), _, rfl⟩
    | some a =>
      have hf : h a = none := hm a rfl
      cases str with
      | false =>
        have e1 : q_insert_head h (some qs) s (some a) false = some (false, h, some qs) := by
          simp [q_insert_head, create_ele, write_write, write_fresh h a hf]
        have e2 : q_insert_tail h (some qs) s (some a) false = some (false, h, some qs) := by
          simp [q_insert_tail, create_ele, write_write, write_fresh h a hf]
        exact ⟨fun _ => ⟨e1, e2⟩, fun _ _ _ => Or.inr (Or.inr rfl),
          fun _ _ _ => Or.inr (Or.inr rfl), _, e1⟩
      | true =>
        refine ⟨?_, ?_, ?_, _, q_insert_head_eq h qs s a⟩
        · rintro (hq | hn | hs)
          · cases hq
          · cases hn
          · cases hs
        · intro r hr hfalse
          rw [q_insert_head_eq] at hr
          cases hr
          cases hfalse
        · intro r hr hfalse
          exfalso
          simp only [q_insert_tail, create_ele, write_write, if_true] at hr
          split at hr
          · split at hr
            · cases hr
            · cases hr
              cases hfalse
          · cases hr
            cases hfalse

/-- Witness of C10: the string allocation fails on the two-element queue
`demo_queue`. -/
theorem q_insert_false_witness :
    malloc_ok demo_heap (some 3) ∧
    (((some demo_queue = none ∨ (some 3 : Option Nat) = none ∨ false = false) →
      q_insert_head demo_heap (some demo_queue) [99] (some 3) false
        = some (false, demo_heap, some demo_queue) ∧
      q_insert_tail demo_heap (some demo_queue) [99] (some 3) false
        = some (false, demo_heap, some demo_queue)) ∧
    (∀ r, q_insert_head demo_heap (some demo_queue) [99] (some 3) false = some r →
      r.1 = false → (some demo_queue = none ∨ (some 3 : Option Nat) = none ∨ false = false)) ∧
    (∀ r, q_insert_tail demo_heap (some demo_queue) [99] (some 3) false = some r →
      r.1 = false → (some demo_queue = none ∨ (some 3 : Option Nat) = none ∨ false = false)) ∧
    (∃ r, q_insert_head demo_heap (some demo_queue) [99] (some 3) false = some r)) :=
  ⟨demo_malloc_ok,
    q_insert_false demo_heap (some demo_queue) [99] (some 3) false demo_malloc_ok⟩

/-- C11: bounded copy on removal.  On a well-formed non-empty queue whose head
value is the string `v`, for every provided buffer `b` and capacity `c`,
`q_remove_head` returns true and removes the head.  When `c > 0` the buffer
then holds the first `min (len v) (c - 1)` bytes of `v` followed by one NUL
byte, and every byte behind that terminator (in particular every byte at an
index `≥ c`) is as before, so `c = 1` writes the terminator only.  When
`c = 0` the buffer is not written at all. -/
theorem q_remove_head_bounded_copy (h : Heap) (q : queue_t) (x : Nat) (A : List Nat)
    (v : List Nat) (b : Buffer) (c : Nat) (hw : wf h q (x :: A))
    (hv : value_at h x = some v) :
    ∃ h' q' b', q_remove_head h (some q) (some b) c = some (true, h', some q', some b') ∧
      wf h' q' A ∧ h' x = none ∧
      (0 < c →
        read_bytes b' (min v.length (c - 1) + 1) = v.take (min v.length (c - 1)) ++ [0] ∧
        (∀ i, min v.length (c - 1) < i → b' i = b i) ∧ (∀ i, c ≤ i → b' i = b i)) ∧
      (c = 1 → b' 0 = 0 ∧ ∀ i, 0 < i → b' i = b i) ∧
      (c = 0 → b' = b) := by
  have hq : q.head = some x := hw.1.1
  obtain ⟨e, he, _⟩ := hw.1.2
  have hval : e.value = some v := by simpa [value_at, he] using hv
  have hgen : 0 < c →
      read_bytes (snprintf b c v) (min v.length (c - 1) + 1)
        = v.take (min v.length (c - 1)) ++ [0] ∧
      (∀ i, min v.length (c - 1) < i → snprintf b c v i = b i) := by
    intro hc
    have hlen := snprintf_str_length c v
    constructor
    · have h1 := read_bytes_snprintf_trunc b c v hc (min v.length (c - 1)) (by rw [hlen])
      have h2 : snprintf b c v (min v.length (c - 1)) = 0 := by
        rw [← hlen]; exact snprintf_terminator b c v hc
      have h3 : (snprintf_str c v).take (min v.length (c - 1)) = snprintf_str c v := by
        rw [← hlen]; exact List.take_length _
      rw [read_bytes_succ, h1, h2, h3, snprintf_str_eq_take]
    · intro i hi
      exact snprintf_untouched b c v i (by rw [hlen]; exact hi)
  have hb := wf_bound hw
  simp only [List.length_cons] at hb
  push_cast at hb
  refine ⟨_, _, snprintf b c v, ?_,
    shape_wf (shape_remove_head (wf_shape hw) he).1 (by omega), write_same _ _ _, ?_, ?_, ?_⟩
  · rw [q_remove_head_eq hq he, hval]
  · intro hc
    obtain ⟨h1, h2⟩ := hgen hc
    refine ⟨h1, h2, fun i hi => h2 i ?_⟩
    have : min v.length (c - 1) ≤ c - 1 := Nat.min_le_right _ _
    omega
  · intro hc
    subst hc
    obtain ⟨h1, h2⟩ := hgen (by decide)
    have hm : min v.length (1 - 1) = 0 := by simp
    rw [hm] at h1 h2
    refine ⟨?_, h2⟩
    have := congrArg (fun l => l.getD 0 7) h1
    simpa [read_bytes] using this
  · intro hc
    subst hc
    rfl

/-- Witness of C11: the head "b" of `demo_queue` is removed into a buffer of
capacity 1. -/
theorem q_remove_head_bounded_copy_witness :
    wf demo_heap demo_queue [1, 2] ∧ value_at demo_heap 1 = some [98] ∧
    ∃ h' q' b', q_remove_head demo_heap (some demo_queue) (some blank) 1
        = some (true, h', some q', some b') ∧
      wf h' q' [2] ∧ h' 1 = none ∧
      (0 < 1 →
        read_bytes b' (min ([98] : List Nat).length (1 - 1) + 1)
          = ([98] : List Nat).take (min ([98] : List Nat).length (1 - 1)) ++ [0] ∧
        (∀ i, min ([98] : List Nat).length (1 - 1) < i → b' i = blank i) ∧
        (∀ i, 1 ≤ i → b' i = blank i)) ∧
      (1 = 1 → b' 0 = 0 ∧ ∀ i, 0 < i → b' i = blank i) ∧
      (1 = 0 → b' = blank) :=
  ⟨demo_wf, rfl, q_remove_head_bounded_copy demo_heap demo_queue 1 [2] [98] blank 1 demo_wf rfl⟩

/-- Counterexample to C12: after 2147483648 inserts that returned true and no
remove, `q_size` returns -2147483648, which is not the number of inserts
minus the number of removes. -/
theorem q_size_miscounts :
    Counted (push_many 2147483648).1 (push_many 2147483648).2 2147483648 0 ∧
    q_size (some (push_many 2147483648).2) = -2147483648 ∧
    ¬ (q_size (some (push_many 2147483648).2)
        = ((2147483648 : Nat) : Int) - ((0 : Nat) : Int)) := by
  have hq : q_size (some (push_many 2147483648).2) = -2147483648 :=
    (q_size_push_many 2147483648).trans to_int_overflow
  refine ⟨(push_many_more 2147483648).2.1, hq, ?_⟩
  intro h0
  rw [hq] at h0
  exact absurd h0 (by decide)

/-- C12 (amended): after any finite sequence of `q_insert_head`,
`q_insert_tail`, `q_remove_head`, `q_reverse` and `q_sort` calls on a queue
from `q_new`, in which `i` inserts and `r` removes returned true, the number
of elements linked from `head` is `i - r` and `q_size` returns that number as
it is stored in a 32-bit `int`; as long as the queue holds fewer than
2147483648 elements `q_size` returns exactly the number of elements, `i - r`.
`q_size` of an absent queue is 0. -/
theorem q_size_counts (h : Heap) (q : queue_t) (i r : Nat) (hc : Counted h q i r) :
    (∃ L, chain h q.head L ∧ (L.length : Int) = (i : Int) - (r : Int) ∧
      q_size (some q) = to_int (L.length : Int) ∧
      (L.length < 2147483648 →
        q_size (some q) = (L.length : Int) ∧ q_size (some q) = (i : Int) - (r : Int))) ∧
    q_size none = 0 := by
  obtain ⟨A, hw, hlen⟩ := counted_shape hc
  refine ⟨⟨A, hw.1, hlen, q_size_of_shape hw, ?_⟩, rfl⟩
  intro hlt
  have h1 : q_size (some q) = (A.length : Int) :=
    (q_size_of_shape hw).trans (to_int_small _ (Int.natCast_nonneg _) (by omega))
  exact ⟨h1, h1.trans hlen⟩

/-- Witness of C12 (amended): the counted run `counted_state`. -/
theorem q_size_counts_witness :
    Counted counted_state.1 counted_state.2.1 counted_state.2.2.1 counted_state.2.2.2 ∧
    ((∃ L, chain counted_state.1 counted_state.2.1.head L ∧
        (L.length : Int) = (counted_state.2.2.1 : Int) - (counted_state.2.2.2 : Int) ∧
        q_size (some counted_state.2.1) = to_int (L.length : Int) ∧
        (L.length < 2147483648 →
          q_size (some counted_state.2.1) = (L.length : Int) ∧
          q_size (some counted_state.2.1)
            = (counted_state.2.2.1 : Int) - (counted_state.2.2.2 : Int))) ∧
     q_size none = 0) :=
  ⟨counted_state_ok,
    q_size_counts counted_state.1 counted_state.2.1 counted_state.2.2.1 counted_state.2.2.2
      counted_state_ok⟩

/-- C13: applying `q_reverse` twice restores the original state.  On a
well-formed queue (budget covering the number of elements) the first call
returns a state on which the second call returns exactly the original heap and
queue record: the same elements in the same order with the same links, the
same `head`, `tail` and `size`.  On an absent queue both calls do nothing. -/
theorem q_reverse_twice (h : Heap) (q : queue_t) (A : List Nat) (fuel : Nat)
    (hw : wf h q A) (hfuel : A.length ≤ fuel) :
    (∃ h1 q1, q_reverse fuel h (some q) = some (h1, some q1) ∧
      q_reverse fuel h1 (some q1) = some (h, some q)) ∧
    (∀ f, q_reverse f h none = some (h, none)) := by
  refine ⟨?_, fun _ => rfl⟩
  have hsh := wf_shape hw
  obtain ⟨h1, q1, hrun1, hw1, hV1, hF1, _⟩ := q_reverse_ok hsh hfuel
  have hfuel1 : A.reverse.length ≤ fuel := by rw [List.length_reverse]; exact hfuel
  obtain ⟨h2, q2, hrun2, hw2, hV2, hF2, _⟩ := @q_reverse_ok h1 q1 A.reverse fuel hw1 hfuel1
  rw [List.reverse_reverse] at hw2
  have hq : q2 = q := queue_eq_of_shape hsh hw2
  subst hq
  have hh : h2 = h := by
    refine heap_eq_of_chain hw.1 hw2.1 (same_values_trans hV1 hV2) (fun x hx => ?_)
    rw [hF2 x (fun hm => hx (List.mem_reverse.1 hm)), hF1 x hx]
  subst hh
  exact ⟨h1, q1, hrun1, hrun2⟩

/-- Witness of C13: the two-element queue `demo_queue` reversed twice. -/
theorem q_reverse_twice_witness :
    wf demo_heap demo_queue [1, 2] ∧ ([1, 2] : List Nat).length ≤ 2 ∧
    ((∃ h1 q1, q_reverse 2 demo_heap (some demo_queue) = some (h1, some q1) ∧
      q_reverse 2 h1 (some q1) = some (demo_heap, some demo_queue)) ∧
    (∀ f, q_reverse f demo_heap none = some (demo_heap, none))) :=
  ⟨demo_wf, by decide, q_reverse_twice demo_heap demo_queue [1, 2] 2 demo_wf (by decide)⟩

/-- C14: `q_sort` is idempotent.  On a well-formed queue (budgets covering the
number of elements) `q_sort` returns a state on which a second `q_sort`
returns exactly that state again: the same elements in the same order with
the same links, the same `head`, `tail` and `size`.  On an absent queue
`q_sort` does nothing. -/
theorem q_sort_idempotent (h : Heap) (q : queue_t) (A : List Nat) (depth fuel : Nat)
    (hw : wf h q A) (hdepth : A.length ≤ 2 ^ depth) (hfuel : A.length ≤ fuel) :
    (∃ h1 q1 A1, q_sort depth fuel h (some q) = some (h1, some q1) ∧ wf h1 q1 A1 ∧
      q_sort depth fuel h1 (some q1) = some (h1, some q1)) ∧
    (∀ d f, q_sort d f h none = some (h, none)) := by
  refine ⟨?_, fun _ _ => rfl⟩
  obtain ⟨h1, q1, hrun1, hw1, hV1, hF1, _⟩ := q_sort_ok (wf_shape hw) hdepth hfuel
  have hdepth1 : (A.mergeSort (le_elem h)).length ≤ 2 ^ depth := by
    rw [List.length_mergeSort]; exact hdepth
  have hfuel1 : (A.mergeSort (le_elem h)).length ≤ fuel := by
    rw [List.length_mergeSort]; exact hfuel
  obtain ⟨h2, q2, hrun2, hw2, hV2, hF2, _⟩ :=
    @q_sort_ok h1 q1 (A.mergeSort (le_elem h)) depth fuel hw1 hdepth1 hfuel1
  have hsorted : (A.mergeSort (le_elem h)).mergeSort (le_elem h1) = A.mergeSort (le_elem h) := by
    rw [le_elem_congr hV1]
    exact List.mergeSort_of_sorted (sorted_mergeSort_elems h A)
  simp only [hsorted] at hw2 hF2
  have hq : q2 = q1 := queue_eq_of_shape hw1 hw2
  subst hq
  have hh : h2 = h1 := heap_eq_of_chain hw1.1 hw2.1 hV2 hF2
  subst hh
  exact ⟨h2, q2, _, hrun1,
    shape_wf hw1 (by rw [List.length_mergeSort]; exact wf_bound hw), hrun2⟩

/-- Witness of C14: the two-element queue `demo_queue` sorted twice. -/
theorem q_sort_idempotent_witness :
    wf demo_heap demo_queue [1, 2] ∧ ([1, 2] : List Nat).length ≤ 2 ^ 1 ∧
    ([1, 2] : List Nat).length ≤ 2 ∧
    ((∃ h1 q1 A1, q_sort 1 2 demo_heap (some demo_queue) = some (h1, some q1) ∧
      wf h1 q1 A1 ∧ q_sort 1 2 h1 (some q1) = some (h1, some q1)) ∧
    (∀ d f, q_sort d f demo_heap none = some (demo_heap, none))) :=
  ⟨demo_wf, by decide, by decide,
    q_sort_idempotent demo_heap demo_queue [1, 2] 1 2 demo_wf (by decide) (by decide)⟩

/-- C16: absent values sort first.  On a well-formed queue (budgets covering
the number of elements) `q_sort` returns a well-formed queue with elements
`A'` in which every element with an absent value comes before every element
with a present value, and the present values are in non-decreasing `strcmp`
order.  The test of `merge` takes the left element exactly when the left
value is absent, or the right value is present and `strcmp` does not put the
left value after it. -/
theorem q_sort_absent_first (h : Heap) (q : queue_t) (A : List Nat) (depth fuel : Nat)
    (hw : wf h q A) (hdepth : A.length ≤ 2 ^ depth) (hfuel : A.length ≤ fuel) :
    (∃ h' q' A', q_sort depth fuel h (some q) = some (h', some q') ∧ wf h' q' A' ∧
      (∀ a b t, a ∈ A' → b ∈ A' → value_at h' a = none → value_at h' b = some t →
        [a, b].Sublist A') ∧
      (∀ a b s t, [a, b].Sublist A' → value_at h' a = some s → value_at h' b = some t →
        strcmp s t ≤ 0)) ∧
    (∀ (h0 : Heap) (l r : Nat) (el er : list_ele_t), h0 l = some el → h0 r = some er →
      (take_left h0 l r = some true ↔
        (el.value = none ∨ ∃ s t, el.value = some s ∧ er.value = some t ∧ strcmp s t ≤ 0)) ∧
      (take_left h0 l r = some true ∨ take_left h0 l r = some false)) := by
  constructor
  · obtain ⟨h', q', hrun, hw', hV, _⟩ := q_sort_ok (wf_shape hw) hdepth hfuel
    refine ⟨h', q', _, hrun, shape_wf hw' (by rw [List.length_mergeSort]; exact wf_bound hw),
      ?_, ?_⟩
    · intro a b t ha hb hva hvb
      rw [same_values_value_at hV] at hva hvb
      have hne : a ≠ b := by
        rintro rfl
        rw [hva] at hvb; cases hvb
      rcases pair_sublist_or hne ha hb with h1 | h1
      · exact h1
      · exfalso
        have := le_elem_of_pair_sublist h A h1
        simp [le_elem, le_value, hva, hvb] at this
    · intro a b s t hab hva hvb
      rw [same_values_value_at hV] at hva hvb
      have := le_elem_of_pair_sublist h A hab
      simpa [le_elem, le_value, hva, hvb] using this
  · intro h0 l r el er hl hr
    rw [take_left_eq hl hr]
    obtain ⟨vl, nl⟩ := el
    obtain ⟨vr, nr⟩ := er
    cases vl <;> cases vr <;> simp [le_elem, le_value, value_at, hl, hr]
    exact le_or_lt _ _

/-- Witness of C16: sorting the queue of `absent_heap`, whose second element
has no value. -/
theorem q_sort_absent_first_witness :
    wf absent_heap demo_queue [1, 2] ∧ ([1, 2] : List Nat).length ≤ 2 ^ 1 ∧
    ([1, 2] : List Nat).length ≤ 2 ∧
    ((∃ h' q' A', q_sort 1 2 absent_heap (some demo_queue) = some (h', some q') ∧ wf h' q' A' ∧
      (∀ a b t, a ∈ A' → b ∈ A' → value_at h' a = none → value_at h' b = some t →
        [a, b].Sublist A') ∧
      (∀ a b s t, [a, b].Sublist A' → value_at h' a = some s → value_at h' b = some t →
        strcmp s t ≤ 0)) ∧
    (∀ (h0 : Heap) (l r : Nat) (el er : list_ele_t), h0 l = some el → h0 r = some er →
      (take_left h0 l r = some true ↔
        (el.value = none ∨ ∃ s t, el.value = some s ∧ er.value = some t ∧ strcmp s t ≤ 0)) ∧
      (take_left h0 l r = some true ∨ take_left h0 l r = some false))) :=
  ⟨absent_wf, by decide, by decide,
    q_sort_absent_first absent_heap demo_queue [1, 2] 1 2 absent_wf (by decide) (by decide)⟩

/-- C17: the midpoint split.  For a list of `n ≥ 2` elements (`a`, its
successor `b` and the rest `T`) the slow/fast walk of `merge_sort` followed by
the cut returns `a` as left sub-list holding the first `(n + 1) / 2`
(the ceiling of `n / 2`) elements and the successor of the midpoint as right
sub-list holding the remaining `n / 2` elements, both in the original order,
so that left followed by right is the original list; only the successor
reference of the midpoint is changed.  This split is the one `merge_sort`
performs before its two recursive calls. -/
theorem merge_sort_split_spec (h : Heap) (a b : Nat) (T : List Nat) (fuel : Nat)
    (hc : chain h (some a) (a :: b :: T)) (hfuel : (T.length + 1) / 2 ≤ fuel) :
    (∃ h1 right, merge_sort_split fuel h a b = some (h1, some a, right) ∧
      chain h1 (some a) ((a :: b :: T).take (((a :: b :: T).length + 1) / 2)) ∧
      chain h1 right ((a :: b :: T).drop (((a :: b :: T).length + 1) / 2)) ∧
      same_values h h1 ∧ (∀ x, x ∉ a :: b :: T → h1 x = h x)) ∧
    ((a :: b :: T).take (((a :: b :: T).length + 1) / 2)).length
      = ((a :: b :: T).length + 1) / 2 ∧
    ((a :: b :: T).drop (((a :: b :: T).length + 1) / 2)).length = (a :: b :: T).length / 2 ∧
    (a :: b :: T).take (((a :: b :: T).length + 1) / 2) ++
      (a :: b :: T).drop (((a :: b :: T).length + 1) / 2) = a :: b :: T ∧
    (∀ depth, merge_sort (depth + 1) fuel h (some a) =
      match merge_sort_split fuel h a b with
      | none => none
      | some (h1, left, right) =>
        match merge_sort depth fuel h1 left with
        | none => none
        | some (h2, l) =>
          match merge_sort depth fuel h2 right with
          | none => none
          | some (h3, r) => merge fuel h3 l r) := by
  have hn : ((a :: b :: T).length + 1) / 2 = (T.length + 3) / 2 := by
    simp only [List.length_cons]
  rw [hn]
  refine ⟨merge_sort_split_ok hc hfuel, ?_, ?_, List.take_append_drop _ _, ?_⟩
  · rw [List.length_take]; simp only [List.length_cons]; omega
  · rw [List.length_drop]; simp only [List.length_cons]; omega
  · intro depth
    obtain ⟨_, ea, hea, hb, _⟩ := hc
    exact merge_sort_unfold_split depth fuel hea hb

/-- Witness of C17: the split of the two-element list of `demo_heap`. -/
theorem merge_sort_split_spec_witness :
    chain demo_heap (some 1) (1 :: 2 :: []) ∧ (([] : List Nat).length + 1) / 2 ≤ 1 ∧
    ∃ h1 right, merge_sort_split 1 demo_heap 1 2 = some (h1, some 1, right) ∧
      chain h1 (some 1) ((1 :: 2 :: []).take (((1 :: 2 :: [] : List Nat).length + 1) / 2)) ∧
      chain h1 right ((1 :: 2 :: []).drop (((1 :: 2 :: [] : List Nat).length + 1) / 2)) ∧
      same_values demo_heap h1 ∧ (∀ x, x ∉ (1 :: 2 :: [] : List Nat) → h1 x = demo_heap x) :=
  ⟨demo_wf.1, by decide,
    (merge_sort_split_spec demo_heap 1 2 [] 1 demo_wf.1 (by decide)).1⟩

/-- C18: `merge_sort` terminates with logarithmic recursion depth.  On every
list that ends in `NULL`, with `n` elements, `merge_sort` returns (the sorted
list) when the nesting of its recursive calls is limited to the ceiling of
`log2 n` and every loop to `n` iterations.  For `n ≥ 2` the two lists handed
to the recursive calls, the first `(n + 1) / 2` and the remaining elements,
are non-empty and strictly shorter than the list. -/
theorem merge_sort_terminates (h : Heap) (p : Option Nat) (L : List Nat) (fuel : Nat)
    (hc : chain h p L) (hfuel : L.length ≤ fuel) :
    (∃ h' p', merge_sort (Nat.clog 2 L.length) fuel h p = some (h', p') ∧
      chain h' p' (L.mergeSort (le_elem h))) ∧
    (2 ≤ L.length →
      0 < (L.take ((L.length + 1) / 2)).length ∧
      (L.take ((L.length + 1) / 2)).length < L.length ∧
      0 < (L.drop ((L.length + 1) / 2)).length ∧
      (L.drop ((L.length + 1) / 2)).length < L.length) := by
  constructor
  · obtain ⟨h', p', hrun, hc', _⟩ :=
      merge_sort_ok (le_elem h) (Nat.clog 2 L.length) L h p fuel rfl hc
        (Nat.le_pow_clog (by decide) L.length) hfuel
    exact ⟨h', p', hrun, hc'⟩
  · intro h2
    rw [List.length_take, List.length_drop]
    omega

/-- Witness of C18: the two-element list of `demo_heap`. -/
theorem merge_sort_terminates_witness :
    chain demo_heap (some 1) [1, 2] ∧ ([1, 2] : List Nat).length ≤ 2 ∧
    ∃ h' p', merge_sort (Nat.clog 2 ([1, 2] : List Nat).length) 2 demo_heap (some 1)
        = some (h', p') ∧
      chain h' p' (([1, 2] : List Nat).mergeSort (le_elem demo_heap)) :=
  ⟨demo_wf.1, by decide,
    (merge_sort_terminates demo_heap (some 1) [1, 2] 2 demo_wf.1 (by decide)).1⟩

/-- Counterexample to C19: after 2147483648 successful calls of
`q_insert_head` on a new queue, with the counter at the width of a C `int`,
`q_size` returns -2147483648. -/
theorem q_size_negative :
    Reachable32 (push_many 2147483648).1 (push_many 2147483648).2 ∧
    q_size (some (push_many 2147483648).2) = -2147483648 ∧
    ¬ (0 ≤ q_size (some (push_many 2147483648).2)) := by
  have hq : q_size (some (push_many 2147483648).2) = -2147483648 :=
    (q_size_push_many 2147483648).trans to_int_overflow
  refine ⟨(push_many_spec 2147483648).1, hq, ?_⟩
  intro h0
  rw [hq] at h0
  exact absurd h0 (by decide)

/-- C19 (amended): with the `size` counter at the width of a C `int`, in every
state reachable from `q_new` by successful inserts and removes the elements
linked from `head` form a list `L`, and `q_size` returns the length of `L`
stored in an `int`; as long as the queue holds fewer than 2147483648 elements
`q_size` returns exactly that number, an integer `≥ 0`. -/
theorem q_size_nonneg_bounded (h : Heap) (q : queue_t) (hr : Reachable32 h q) :
    ∃ L, chain h q.head L ∧ q.tail = L.getLast? ∧
      q_size (some q) = to_int (L.length : Int) ∧
      (L.length < 2147483648 → q_size (some q) = (L.length : Int) ∧ 0 ≤ q_size (some q)) := by
  obtain ⟨L, hsh⟩ := reachable32_shape hr
  have hs := q_size_of_shape hsh
  refine ⟨L, hsh.1, hsh.2.1, hs, ?_⟩
  intro hlt
  have hsmall : to_int (L.length : Int) = (L.length : Int) :=
    to_int_small _ (by omega) (by omega)
  have hq : q_size (some q) = (L.length : Int) := hs.trans hsmall
  exact ⟨hq, by rw [hq]; omega⟩

/-- Witness of C19 (amended): the state after two insertions. -/
theorem q_size_nonneg_bounded_witness :
    Reachable32 (push_many 2).1 (push_many 2).2 ∧
    ∃ L, chain (push_many 2).1 (push_many 2).2.head L ∧ (push_many 2).2.tail = L.getLast? ∧
      q_size (some (push_many 2).2) = to_int (L.length : Int) ∧
      (L.length < 2147483648 →
        q_size (some (push_many 2).2) = (L.length : Int) ∧ 0 ≤ q_size (some (push_many 2).2)) :=
  ⟨(push_many_spec 2).1, q_size_nonneg_bounded _ _ (push_many_spec 2).1⟩

/-- C20: the LIFO law.  Starting from a new queue in a heap where the
addresses handed out by `malloc` are fresh and distinct, inserting the strings
of `items` at the head (all allocations succeed) and then calling
`q_remove_head` once per item, each time with a buffer whose capacity exceeds
the length of the string, succeeds; every removal returns true, the buffers
hold the strings in the reverse of the insertion order, and the queue is left
with `size` 0 and `head` and `tail` absent.  In particular, on a well-formed
queue `q_insert_head` followed by `q_remove_head` (capacity above the length
of `s`) returns `s` in the buffer and restores the heap and the queue record,
hence the element sequence, `tail` and `size`. -/
theorem lifo_law (h0 : Heap) (items : List (Nat × List Nat)) (bufs : List (Buffer × Nat))
    (hnd : (items.map Prod.fst).Nodup) (hfresh : ∀ a ∈ items.map Prod.fst, h0 a = none)
    (hbig : List.Forall₂ (fun (it : Nat × List Nat) (bn : Buffer × Nat) => it.2.length < bn.2)
      items.reverse bufs) :
    (∃ h1 q1 outs h2, insert_head_all h0 (q_new true) items = some (h1, some q1) ∧
      remove_head_all h1 (some q1) bufs
        = some (outs, h2, some { head := none, tail := none, size := 0 }) ∧
      List.Forall₂ (fun (it : Nat × List Nat) (o : Bool × Option Buffer) =>
        o.1 = true ∧ holds o.2 it.2) items.reverse outs) ∧
    (∀ (h : Heap) (q : queue_t) (A : List Nat) (s : List Nat) (a : Nat) (b : Buffer) (n : Nat),
      wf h q A → malloc_ok h (some a) → s.length < n →
      ∃ h1 q1 b1, q_insert_head h (some q) s (some a) true = some (true, h1, some q1) ∧
        q_remove_head h1 (some q1) (some b) n = some (true, h, some q, some b1) ∧
        holds (some b1) s) := by
  constructor
  · have hw0 : shape h0 { head := none, tail := none, size := 0 } [] := ⟨rfl, rfl, rfl⟩
    obtain ⟨h1, q1, hrun1, hw1, hv1⟩ := insert_head_all_ok items h0 _ [] hw0 hnd hfresh
    simp only [List.append_nil, vals, List.map_nil] at hw1 hv1
    have hv1' : vals h1 (items.map Prod.fst).reverse = (items.reverse.map Prod.snd).map some := by
      simpa [vals, List.map_reverse] using hv1
    have hbig' : List.Forall₂ (fun (s : List Nat) (bn : Buffer × Nat) => s.length < bn.2)
        (items.reverse.map Prod.snd) bufs := by
      rw [List.forall₂_map_left_iff]; exact hbig
    obtain ⟨outs, h2, hrun2, hall⟩ :=
      remove_head_all_ok (items.reverse.map Prod.snd) _ h1 q1 bufs hw1 hv1' hbig'
    refine ⟨h1, q1, outs, h2, hrun1, hrun2, ?_⟩
    rw [List.forall₂_map_left_iff] at hall
    exact hall
  · intro h q A s a b n hw hm hn
    have hf : h a = none := hm a rfl
    exact ⟨_, _, snprintf b n s, q_insert_head_eq h q s a,
      insert_remove_restores s b n (wf_shape hw) hf, holds_snprintf b n s hn⟩

/-- Witness of C20: "a" then "b" are pushed on a new queue in the empty heap. -/
theorem lifo_law_witness :
    (([(1, [97]), (2, [98])] : List (Nat × List Nat)).map Prod.fst).Nodup ∧
    (∀ a ∈ ([(1, [97]), (2, [98])] : List (Nat × List Nat)).map Prod.fst,
      empty_heap a = none) ∧
    List.Forall₂ (fun (it : Nat × List Nat) (bn : Buffer × Nat) => it.2.length < bn.2)
      ([(1, [97]), (2, [98])] : List (Nat × List Nat)).reverse [(blank, 2), (blank, 8)] ∧
    ∃ h1 q1 outs h2,
      insert_head_all empty_heap (q_new true) [(1, [97]), (2, [98])] = some (h1, some q1) ∧
      remove_head_all h1 (some q1) [(blank, 2), (blank, 8)]
        = some (outs, h2, some { head := none, tail := none, size := 0 }) ∧
      List.Forall₂ (fun (it : Nat × List Nat) (o : Bool × Option Buffer) =>
        o.1 = true ∧ holds o.2 it.2) ([(1, [97]), (2, [98])] : List (Nat × List Nat)).reverse
        outs :=
  ⟨by decide, fun _ _ => rfl,
    List.Forall₂.cons (by decide) (List.Forall₂.cons (by decide) List.Forall₂.nil),
    (lifo_law empty_heap [(1, [97]), (2, [98])] [(blank, 2), (blank, 8)] (by decide)
      (fun _ _ => rfl)
      (List.Forall₂.cons (by decide) (List.Forall₂.cons (by decide) List.Forall₂.nil))).1⟩

end Queue
